import Mathlib

/-!
Shallow embedding of the lua2cpp runtime core
(`src/tests/cpp/runtime/lua_table.hpp` and `src/tests/cpp/runtime/lua_closure.hpp`):
the NaN-boxed `TValue`, the hybrid array/hash `LuaTable` with its Swiss-table hash
part, and the closure/upvalue subsystem.

Modelling conventions:
* machine integers (`uint32_t`, `uint64_t`) are `Nat` with explicit reductions
  modulo `2^32` / `2^64` at the operations where C++ wraps;
* `int8_t` control bytes are `Int` values in `[-128, 127]`;
* strings are referenced by pointer (a `Nat`); the bytes a pointer refers to are
  supplied by an ambient read-only byte heap `Nat → List Nat` (one byte per entry,
  the terminating NUL excluded, so `strlen` is `List.length`);
* unbounded C++ loops (`for(;;)` probe loops, `while(true)` scans) are modelled
  with explicit fuel; exhausting the fuel corresponds to a C++ execution that
  never terminates and is rendered as `none`;
* a failing `assert` is rendered as `none`;
* a dereference of a pointer the heap does not know is undefined behaviour in the
  C++ source and is rendered as `none`.
-/

def U64 : Nat := 2 ^ 64
def U32 : Nat := 2 ^ 32

/-- Byte heap backing C strings: pointer to NUL-terminated content (bytes, NUL
excluded). -/
abbrev StrHeap := Nat → List Nat

/-- NaN-boxed tagged value, 8 bytes (`class TValue`); `bits` is the raw
`uint64_t`. -/
structure TValue where
  bits : Nat
deriving DecidableEq, Repr

namespace TValue

def NANBOX_BASE : Nat := 0xfff8000000000000
def TAG_NIL : Nat := 0xfff8000000000000
def TAG_FALSE : Nat := 0xfff9000000000000
def TAG_TRUE : Nat := 0xfffa000000000000
def TAG_LIGHTUD : Nat := 0xfffb000000000000
def TAG_STRING : Nat := 0xfffc000000000000
def TAG_FUNCTION : Nat := 0xfff8800000000000
def TAG_TABLE : Nat := 0xfff9800000000000
def TAG_INT : Nat := 0xfffb800000000000
def POINTER_MASK : Nat := 0x00007fffffffffff
def TAG_MASK : Nat := 0xffff800000000000

/-- `TValue::Nil()`. -/
def nilV : TValue := ⟨TAG_NIL⟩

/-- `TValue::Boolean(bool)`. -/
def booleanV (b : Bool) : TValue := ⟨if b then TAG_TRUE else TAG_FALSE⟩

/-- `TValue::Integer(int32_t)`: the payload is the 32-bit pattern of the
integer. -/
def intV (i : Nat) : TValue := ⟨TAG_INT ||| (i % U32)⟩

/-- `TValue::Number(double)`: the bit pattern of the double is the value. -/
def numV (d : Nat) : TValue := ⟨d % U64⟩

/-- `TValue::String(const void*)`. -/
def stringV (p : Nat) : TValue := ⟨TAG_STRING ||| (p &&& POINTER_MASK)⟩

/-- `TValue::Table(LuaTable*)`. -/
def tableV (p : Nat) : TValue := ⟨TAG_TABLE ||| (p &&& POINTER_MASK)⟩

/-- `TValue::Function(FuncType*)`. -/
def functionV (p : Nat) : TValue := ⟨TAG_FUNCTION ||| (p &&& POINTER_MASK)⟩

def isNil (v : TValue) : Bool := v.bits == TAG_NIL
def isInteger (v : TValue) : Bool := v.bits &&& TAG_MASK == TAG_INT
def isNumber (v : TValue) : Bool := v.bits &&& NANBOX_BASE != NANBOX_BASE
def isString (v : TValue) : Bool := v.bits &&& TAG_MASK == TAG_STRING
def isTable (v : TValue) : Bool := v.bits &&& TAG_MASK == TAG_TABLE
def isFunction (v : TValue) : Bool := v.bits &&& TAG_MASK == TAG_FUNCTION
def isFalsy (v : TValue) : Bool := v.bits == TAG_NIL || v.bits == TAG_FALSE

/-- `toInteger()`: the low 32 bits (the `int32_t` as its `uint32_t` pattern). -/
def toInteger (v : TValue) : Nat := v.bits &&& 0xffffffff

/-- `toPtr()` / `toTable()` / `toFunction()`: the masked pointer. -/
def toPtr (v : TValue) : Nat := v.bits &&& POINTER_MASK

/-- `TValue::operator==`: same bits, or two Strings with byte-identical
content (`strcmp == 0`). -/
def tvEq (sh : StrHeap) (a b : TValue) : Bool :=
  if a.bits == b.bits then true
  else if a.isString && b.isString then sh a.toPtr == sh b.toPtr
  else false

/-- `TValue::operator!=`: raw bit inequality (note: not defined as the negation
of `operator==`). -/
def tvNeq (a b : TValue) : Bool := a.bits != b.bits

end TValue

/-! wyhash (`namespace wyhash_impl`), translated verbatim; used by string and
raw-bits hashing.  All quantities are `uint64_t`. -/

namespace wyhash

def P0 : Nat := 0xa0761d6478bd642f
def P1 : Nat := 0xe7037ed1a0b428db
def P2 : Nat := 0x8ebc6af09c88c6e3
def P3 : Nat := 0x589965cc75374cc3

/-- `wymix`: 64x64→128 multiply, xor of the two halves. -/
def wymix (a b : Nat) : Nat :=
  let r := (a % U64) * (b % U64)
  (r % U64) ^^^ (r / U64)

/-- Little-endian read of `n` bytes at offset `off` (reads of `wyr8`/`wyr4`). -/
def rd (p : List Nat) (off n : Nat) : Nat :=
  (List.range n).foldr (fun k acc => acc * 256 + (p.getD (off + k) 0) % 256) 0

def wyr8 (p : List Nat) (off : Nat) : Nat := rd p off 8
def wyr4 (p : List Nat) (off : Nat) : Nat := rd p off 4

/-- The `do { ... } while (i > 48)` bulk loop; returns
`(off, i, seed, s1, s2)`. -/
def loop48 : Nat → List Nat → Nat → Nat → Nat → Nat → Nat → (Nat × Nat × Nat × Nat × Nat)
  | 0, _, off, i, seed, s1, s2 => (off, i, seed, s1, s2)
  | fuel + 1, p, off, i, seed, s1, s2 =>
    let seed' := wymix (wyr8 p off ^^^ P1) (wyr8 p (off + 8) ^^^ seed)
    let s1' := wymix (wyr8 p (off + 16) ^^^ P2) (wyr8 p (off + 24) ^^^ s1)
    let s2' := wymix (wyr8 p (off + 32) ^^^ P3) (wyr8 p (off + 40) ^^^ s2)
    if i - 48 > 48 then loop48 fuel p (off + 48) (i - 48) seed' s1' s2'
    else (off + 48, i - 48, seed', s1', s2')

/-- The `while (i > 16)` loop; returns `(off, i, seed)`. -/
def loop16 : Nat → List Nat → Nat → Nat → Nat → (Nat × Nat × Nat)
  | 0, _, off, i, seed => (off, i, seed)
  | fuel + 1, p, off, i, seed =>
    if i > 16 then
      loop16 fuel p (off + 16) (i - 16) (wymix (wyr8 p off ^^^ P1) (wyr8 p (off + 8) ^^^ seed))
    else (off, i, seed)

/-- `wyhash(key, len, seed)`. -/
def wyhashBytes (p : List Nat) (len seed0 : Nat) : Nat :=
  let seed := seed0 ^^^ P0
  if len ≤ 16 then
    let a :=
      if len ≥ 4 then
        ((wyr4 p 0 <<< 32) ||| wyr4 p ((len >>> 3) <<< 2))
      else if len > 0 then
        ((p.getD 0 0 % 256) <<< 16) ||| ((p.getD (len >>> 1) 0 % 256) <<< 8) ||| (p.getD (len - 1) 0 % 256)
      else 0
    let b :=
      if len ≥ 4 then
        ((wyr4 p (len - 4) <<< 32) ||| wyr4 p (len - 4 - ((len >>> 3) <<< 2)))
      else 0
    wymix (P1 ^^^ len) (wymix (a ^^^ P1) (b ^^^ seed))
  else
    let (off, i, seed) :=
      if len > 48 then
        let (off, i, seed1, s1, s2) := loop48 len p 0 len seed seed seed
        (off, i, seed1 ^^^ s1 ^^^ s2)
      else (0, len, seed)
    let (off, i, seed) := loop16 len p off i seed
    let a := wyr8 p (off + i - 16)
    let b := wyr8 p (off + i - 8)
    wymix (P1 ^^^ len) (wymix (a ^^^ P1) (b ^^^ seed))

end wyhash

/-- `hashString`: `(uint32_t)wyhash(s, len)`. -/
def hashString (s : List Nat) : Nat := wyhash.wyhashBytes s s.length 0 % U32

/-- `hashTValue`: Thomas Wang mix for integers, content hash for strings,
`wymix` of the raw bits otherwise.  All arithmetic is `uint32_t`. -/
def hashTValue (sh : StrHeap) (key : TValue) : Nat :=
  if key.isInteger then
    let k0 := key.toInteger % U32
    let k1 := ((k0 >>> 16) ^^^ k0) * 0x45d9f3b % U32
    let k2 := ((k1 >>> 16) ^^^ k1) * 0x45d9f3b % U32
    (k2 >>> 16) ^^^ k2
  else if key.isString then hashString (sh key.toPtr)
  else wyhash.wymix key.bits 0x9e3779b97f4a7c15 % U32

/-! IEEE-754 binary64 decoding for the float-key normalization check.

The source tests `(double)(int32_t)d == d` (after `int32_t i = (int32_t)d`).
For any finite `d` this comparison is true exactly when `d` is an integer in
`[-2^31, 2^31 - 1]` (for such `d` the cast is defined and exact, and
`(double)i` is exact because `2^31 < 2^53`); when `d` is out of that range,
NaN or infinite, the cast is erroneous/UB but whatever `int32_t` it produces
converts back to a double inside the range, so the comparison is false either
way.  `doubleExactInt32` therefore returns the mathematical integer when the
check succeeds and `none` when it fails. -/

def dExp (d : Nat) : Nat := d / 2 ^ 52 % 2 ^ 11
def dFrac (d : Nat) : Nat := d % 2 ^ 52
def dNeg (d : Nat) : Bool := d / 2 ^ 63 % 2 == 1

def doubleExactInt32 (d : Nat) : Option Int :=
  let e := dExp d
  let f := dFrac d
  if e == 0x7ff then none
  else if e == 0 then (if f == 0 then some 0 else none)
  else if e ≥ 1075 then
    let v : Nat := (2 ^ 52 + f) * 2 ^ (e - 1075)
    if dNeg d then (if v ≤ 2 ^ 31 then some (-(v : Int)) else none)
    else (if v ≤ 2 ^ 31 - 1 then some (v : Int) else none)
  else
    let s := 1075 - e
    if (2 ^ 52 + f) % 2 ^ s == 0 then
      let v : Nat := (2 ^ 52 + f) / 2 ^ s
      if dNeg d then (if v ≤ 2 ^ 31 then some (-(v : Int)) else none)
      else (if v ≤ 2 ^ 31 - 1 then some (v : Int) else none)
    else none

/-- The `uint32_t` pattern of an `int32_t` value. -/
def u32ofInt (z : Int) : Nat := (z % (U32 : Int)).toNat

/-- `uint32_t` increment. -/
def u32inc (n : Nat) : Nat := (n + 1) % U32

/-- `uint32_t` decrement (wraps at 0). -/
def u32dec (n : Nat) : Nat := (n + (U32 - 1)) % U32

/-! Swiss-table hash part (`struct HashPart`).  The 16-slot SIMD groups are
modelled directly: the `matchH2`/`matchEmpty`/`matchAvailable` bitmasks combined
with `__builtin_ctz` iterate the matching in-group slots in ascending index
order, which is modelled as an ascending scan over `0..15`. -/

def CTRL_EMPTY : Int := -128
def CTRL_DELETED : Int := -2

structure HashPart where
  ctrl : List Int
  slots : List (TValue × TValue)
  capacity : Nat
  count : Nat
  numGroups : Nat
deriving DecidableEq, Repr

namespace HashPart

/-- High bits of the hash select the starting group (`h1`). -/
def h1 (hp : HashPart) (hash : Nat) : Nat := (hash >>> 7) % hp.numGroups

/-- Low 7 bits of the hash, stored in the control byte (`h2`). -/
def h2of (hash : Nat) : Int := Int.ofNat (hash &&& 0x7f)

def ctrlAt (hp : HashPart) (idx : Nat) : Int := hp.ctrl.getD idx CTRL_EMPTY

def slotAt (hp : HashPart) (idx : Nat) : TValue × TValue :=
  hp.slots.getD idx (TValue.nilV, TValue.nilV)

/-- Scan one group's `matchH2` candidates in ascending index order for a slot
whose control byte is `h2v` and whose key equals `key`; returns the in-group
index of the first hit. -/
def scanGroup (sh : StrHeap) (hp : HashPart) (g : Nat) (h2v : Int) (key : TValue) : Option Nat :=
  (List.range 16).find? fun i =>
    hp.ctrlAt (16 * g + i) == h2v && TValue.tvEq sh (hp.slotAt (16 * g + i)).1 key

/-- `matchEmpty` on a group is nonzero. -/
def hasEmptyG (hp : HashPart) (g : Nat) : Bool :=
  (List.range 16).any fun i => hp.ctrlAt (16 * g + i) == CTRL_EMPTY

/-- First available (empty-or-deleted, i.e. negative control byte) slot of a
group (`matchAvailable` + ctz). -/
def availG (hp : HashPart) (g : Nat) : Option Nat :=
  (List.range 16).find? fun i => hp.ctrlAt (16 * g + i) < 0

inductive FindRes where
  | diverge
  | absent
  | found (idx : Nat)
deriving DecidableEq, Repr

/-- Probe loop of `HashPart::find` (fuel-bounded). -/
def findLoop (sh : StrHeap) (hp : HashPart) (key : TValue) (h2v : Int) : Nat → Nat → FindRes
  | _, 0 => .diverge
  | g, fuel + 1 =>
    match scanGroup sh hp g h2v key with
    | some i => .found (16 * g + i)
    | none =>
      if hp.hasEmptyG g then .absent
      else findLoop sh hp key h2v ((g + 1) &&& (hp.numGroups - 1)) fuel

/-- `HashPart::find`. -/
def find (sh : StrHeap) (hp : HashPart) (key : TValue) : FindRes :=
  if hp.capacity == 0 then .absent
  else
    let h := hashTValue sh key
    findLoop sh hp key (h2of h) (hp.h1 h) hp.numGroups

inductive ULRes where
  | diverge
  | existing (idx : Nat)
  | insertAt (idx : Nat)
deriving DecidableEq, Repr

/-- Probe loop of `HashPart::upsert`: like `findLoop` but records the first
available slot along the chain (`firstAvail`); the `.diverge` in the break
branch models the `assert(firstAvailG != ~0u)` (unreachable, since a group with
an empty slot always yields an available slot). -/
def upsertLoop (sh : StrHeap) (hp : HashPart) (key : TValue) (h2v : Int) :
    Nat → Option Nat → Nat → ULRes
  | _, _, 0 => .diverge
  | g, fa, fuel + 1 =>
    match scanGroup sh hp g h2v key with
    | some i => .existing (16 * g + i)
    | none =>
      let fa' := match fa with
        | some x => some x
        | none => (hp.availG g).map (fun i => 16 * g + i)
      if hp.hasEmptyG g then
        match fa' with
        | some idx => .insertAt idx
        | none => .diverge
      else upsertLoop sh hp key h2v ((g + 1) &&& (hp.numGroups - 1)) fa' fuel

/-- `HashPart::upsert`: returns the updated part and the index of the value
slot for `key` (the inserted slot holds `(key, Nil)`; the caller stores the
value). -/
def upsert (sh : StrHeap) (hp : HashPart) (key : TValue) : Option (HashPart × Nat) :=
  let h := hashTValue sh key
  match upsertLoop sh hp key (h2of h) (hp.h1 h) none hp.numGroups with
  | .diverge => none
  | .existing idx => some (hp, idx)
  | .insertAt idx =>
    some ({ hp with
              ctrl := hp.ctrl.set idx (h2of h),
              slots := hp.slots.set idx (key, TValue.nilV),
              count := u32inc hp.count }, idx)

/-- `HashPart::needsRehash`: `capacity == 0 || count >= capacity * 7 / 8`
(`uint32_t` arithmetic: the multiplication wraps). -/
def needsRehash (hp : HashPart) : Bool :=
  hp.capacity == 0 || decide (hp.count ≥ hp.capacity * 7 % U32 / 8)

/-- `HashPart::init(cap)`. -/
def init (cap : Nat) : HashPart :=
  ⟨List.replicate cap CTRL_EMPTY, List.replicate cap (TValue.nilV, TValue.nilV), cap, 0, cap / 16⟩

/-- `*slot = val` through the pointer `upsert`/`find` returned. -/
def setSlotVal (hp : HashPart) (idx : Nat) (v : TValue) : HashPart :=
  { hp with slots := hp.slots.set idx ((hp.slotAt idx).1, v) }

end HashPart

/-- `struct LuaTable` (the `flags`/`gcMark` GC bookkeeping fields are carried by
no claim and are omitted); `metatable` is a table pointer, `0` for null. -/
structure LuaTable where
  array : List TValue
  arraySize : Nat
  arrayCount : Nat
  hash : HashPart
  metatable : Nat
deriving DecidableEq, Repr

namespace LuaTable

/-- A default-constructed `LuaTable()` (also `create(0, 0)`): no array, no hash
part. -/
def empty : LuaTable := ⟨[], 0, 0, ⟨[], [], 0, 0, 0⟩, 0⟩

def arrAt (t : LuaTable) (i : Nat) : TValue := t.array.getD i TValue.nilV

/-- The tail of `rawget`: `hash.find(key)`, absent key gives Nil. -/
def hashLookup (sh : StrHeap) (t : LuaTable) (key : TValue) : Option TValue :=
  match HashPart.find sh t.hash key with
  | .diverge => none
  | .absent => some TValue.nilV
  | .found idx => some (t.hash.slotAt idx).2

/-- `LuaTable::rawget`. -/
def rawget (sh : StrHeap) (t : LuaTable) (key : TValue) : Option TValue :=
  if key.isInteger then
    let i := (key.toInteger + (U32 - 1)) % U32
    if i < t.arraySize then some (t.arrAt i)
    else t.hashLookup sh key
  else if key.isNumber then
    match doubleExactInt32 key.bits with
    | some z =>
      let iu := u32ofInt z
      let ai := (iu + (U32 - 1)) % U32
      if ai < t.arraySize then some (t.arrAt ai)
      else t.hashLookup sh (TValue.intV iu)
    | none => t.hashLookup sh key
  else t.hashLookup sh key

/-- One live slot of `rehashIntegerKeys`' scan (linear index `j` over the hash
part): migrate an integer key that now fits the grown array. -/
def rikStep (t : LuaTable) (j : Nat) : LuaTable :=
  if 0 ≤ t.hash.ctrlAt j then
    let k := (t.hash.slotAt j).1
    let v := (t.hash.slotAt j).2
    if k.isInteger then
      let ai := (k.toInteger + (U32 - 1)) % U32
      if ai < t.arraySize then
        { t with
            array := t.array.set ai v,
            arrayCount := if !v.isNil then u32inc t.arrayCount else t.arrayCount,
            hash := { t.hash with
                        ctrl := t.hash.ctrl.set j CTRL_DELETED,
                        slots := t.hash.slots.set j (k, TValue.nilV),
                        count := u32dec t.hash.count } }
      else t
    else t
  else t

/-- `LuaTable::rehashIntegerKeys` (group-major scan is linear index order). -/
def rehashIntegerKeys (t : LuaTable) : LuaTable :=
  if t.hash.capacity == 0 then t
  else (List.range t.hash.capacity).foldl rikStep t

/-- The `while (newSize < needed) newSize <<= 1` loop of `growArray`, starting
from 16 (fuel-bounded; `needed` steps always suffice). -/
def growSizeLoop : Nat → Nat → Nat → Nat
  | 0, s, _ => s
  | fuel + 1, s, needed => if s < needed then growSizeLoop fuel (s * 2 % U32) needed else s

/-- `LuaTable::growArray`: allocate a nil-filled buffer of the doubled size,
`memcpy` the old `arraySize` slots in, then migrate integer keys out of the
hash part. -/
def growArray (t : LuaTable) (needed : Nat) : LuaTable :=
  let newSize := growSizeLoop needed 16 needed
  let newArr := t.array.take t.arraySize ++ List.replicate (newSize - t.arraySize) TValue.nilV
  rehashIntegerKeys { t with array := newArr, arraySize := newSize }

/-- Scan step of `rebuildHash`: re-upsert every live slot of the old part into
the accumulator. -/
def rebuildLoop (sh : StrHeap) (old : HashPart) : List Nat → HashPart → Option HashPart
  | [], acc => some acc
  | j :: rest, acc =>
    if 0 ≤ old.ctrlAt j then
      match HashPart.upsert sh acc (old.slotAt j).1 with
      | none => none
      | some (hp1, idx) => rebuildLoop sh old rest (hp1.setSlotVal idx (old.slotAt j).2)
    else rebuildLoop sh old rest acc

/-- `LuaTable::rebuildHash`. -/
def rebuildHash (sh : StrHeap) (old : HashPart) (newCap : Nat) : Option HashPart :=
  rebuildLoop sh old (List.range old.capacity) (HashPart.init newCap)

/-- `LuaTable::hashSet`: rehash-to-double if the load factor demands it, upsert,
store the value, and decrement `count` again when the stored value is nil. -/
def hashSet (sh : StrHeap) (t : LuaTable) (key val : TValue) : Option LuaTable :=
  let step : Option HashPart :=
    if t.hash.needsRehash then
      rebuildHash sh t.hash (if t.hash.capacity == 0 then 16 else t.hash.capacity * 2 % U32)
    else some t.hash
  match step with
  | none => none
  | some hp =>
    match HashPart.upsert sh hp key with
    | none => none
    | some (hp1, idx) =>
      let hp2 := hp1.setSlotVal idx val
      let hp3 := if val.isNil then { hp2 with count := u32dec hp2.count } else hp2
      some { t with hash := hp3 }

/-- `LuaTable::rawset` (the leading `assert(!key.isNil())` is `none`). -/
def rawset (sh : StrHeap) (t : LuaTable) (key val : TValue) : Option LuaTable :=
  if key.isNil then none
  else if key.isInteger then
    let i := (key.toInteger + (U32 - 1)) % U32
    if i < t.arraySize then
      let wasNil := (t.arrAt i).isNil
      let ac :=
        if wasNil && !val.isNil then u32inc t.arrayCount
        else if !wasNil && val.isNil then u32dec t.arrayCount
        else t.arrayCount
      some { t with array := t.array.set i val, arrayCount := ac }
    else if key.toInteger == (t.arraySize + 1) % U32 && !val.isNil then
      let t1 := t.growArray ((t.arraySize + 1) % U32)
      some { t1 with array := t1.array.set i val, arrayCount := u32inc t1.arrayCount }
    else t.hashSet sh key val
  else if key.isNumber then
    match doubleExactInt32 key.bits with
    | some z => t.hashSet sh (TValue.intV (u32ofInt z)) val
    | none => t.hashSet sh key val
  else t.hashSet sh key val

/-- The `while(true)` probe of `length()` for consecutive integer keys past the
array part (fuel-bounded). -/
def lenHashLoop (sh : StrHeap) (t : LuaTable) : Nat → Nat → Option Nat
  | _, 0 => none
  | j, fuel + 1 =>
    match HashPart.find sh t.hash (TValue.intV (j % U32)) with
    | .diverge => none
    | .absent => some (j - 1)
    | .found idx =>
      if (t.hash.slotAt idx).2.isNil then some (j - 1)
      else lenHashLoop sh t (j + 1) fuel

/-- Binary search of `length()` within the array part (fuel-bounded; the
interval halves each step). -/
def bsLoop (t : LuaTable) : Nat → Nat → Nat → Option Nat
  | _, _, 0 => none
  | lo, hi, fuel + 1 =>
    if lo < hi then
      let mid := (lo + hi) / 2
      if (t.arrAt mid).isNil then bsLoop t lo mid fuel
      else bsLoop t (mid + 1) hi fuel
    else some lo

/-- `LuaTable::length` (the leading `if (...) ;` in the source is a no-op and
is not modelled). -/
def length (sh : StrHeap) (t : LuaTable) : Option Nat :=
  if t.arraySize > 0 then
    if !(t.arrAt (t.arraySize - 1)).isNil then
      t.lenHashLoop sh (t.arraySize + 1) (t.hash.capacity + 2)
    else t.bsLoop 0 t.arraySize (t.arraySize + 2)
  else t.lenHashLoop sh 1 (t.hash.capacity + 2)

end LuaTable

/-! Closure / upvalue subsystem (`lua_closure.hpp`).

`UpVal` objects live behind pointers in a heap `UVHeap` (pointer `0` is null).
The stack the caller owns is a memory `Mem` of `TValue`s indexed by slot
address.  The `val` pointer of an `UpVal` can, in every execution of the
source, only point into the stack (while open) or at the upvalue's own
`closed` field (after `close()` runs `val = &closed`); it is modelled as that
two-case sum, with the `closed` storage kept inside the `UpVal` object. -/

abbrev Mem := Nat → TValue

inductive UVState where
  | Open
  | Closed
deriving DecidableEq, Repr

inductive ValPtr where
  | stackPtr (a : Nat)
  | ownClosed
deriving DecidableEq, Repr

/-- `struct UpVal` (the GC header's refcount bookkeeping is carried by no
claim and is omitted); `closedVal` is the source's `closed` field,
`stackSlot = 0` is the null pointer. -/
structure UpVal where
  val : ValPtr
  state : UVState
  openNext : Nat
  stackSlot : Nat
  closedVal : TValue
deriving DecidableEq, Repr

abbrev UVHeap := Nat → Option UpVal

namespace UpVal

/-- `UpVal::create(stackSlot)` (the caller links it into the open list). -/
def create (slot : Nat) : UpVal :=
  ⟨.stackPtr slot, .Open, 0, slot, TValue.nilV⟩

/-- Dereference the `val` pointer. -/
def deref (uv : UpVal) (mem : Mem) : TValue :=
  match uv.val with
  | .stackPtr a => mem a
  | .ownClosed => uv.closedVal

/-- `UpVal::close`: `assert(state == Open)` (modelled as `none`), copy `*val`
into the own storage, repoint `val` at it, null the stack-slot pointer. -/
def close (uv : UpVal) (mem : Mem) : Option UpVal :=
  if uv.state = .Open then
    some { val := .ownClosed, state := .Closed, openNext := uv.openNext,
           stackSlot := 0, closedVal := uv.deref mem }
  else none

/-- `UpVal::get`. -/
def uvGet (uv : UpVal) (mem : Mem) : TValue := uv.deref mem

end UpVal

/-- `UpVal::set`: write through the `val` pointer (into the stack while open,
into the own storage once closed). -/
def uvSet (h : UVHeap) (mem : Mem) (p : Nat) (v : TValue) : Option (UVHeap × Mem) :=
  match h p with
  | none => none
  | some uv =>
    match uv.val with
    | .stackPtr a => some (h, fun x => if x = a then v else mem x)
    | .ownClosed => some (fun q => if q = p then some { uv with closedVal := v } else h q, mem)

/-- `findOrCreateUpVal(openList, slot)`: walk the open list (sorted by
descending stack slot); reuse an upvalue already targeting `slot`, otherwise
create one at a fresh pointer and splice it in at the sorted position.
Returns `(resulting pointer, new head of the walked sublist, heap)`. -/
def findOrCreateUpVal (slot fresh : Nat) : UVHeap → Nat → Nat → Option (Nat × Nat × UVHeap)
  | _, _, 0 => none
  | h, hd, fuel + 1 =>
    if hd = 0 then
      some (fresh, fresh, fun q => if q = fresh then some { UpVal.create slot with openNext := 0 } else h q)
    else
      match h hd with
      | none => none
      | some uv =>
        if uv.stackSlot < slot then
          some (fresh, fresh, fun q => if q = fresh then some { UpVal.create slot with openNext := hd } else h q)
        else if uv.stackSlot = slot then
          some (hd, hd, h)
        else
          match findOrCreateUpVal slot fresh h uv.openNext fuel with
          | none => none
          | some (p, nh, h1) =>
            some (p, hd, fun q => if q = hd then some { uv with openNext := nh } else h1 q)

/-- `closeUpvalues(openList, level)`: pop-and-close every head of the open
list whose stack slot is at or above `level`; returns the new head and heap. -/
def closeUpvalues (mem : Mem) (level : Nat) : UVHeap → Nat → Nat → Option (Nat × UVHeap)
  | _, _, 0 => none
  | h, hd, fuel + 1 =>
    if hd = 0 then some (0, h)
    else
      match h hd with
      | none => none
      | some uv =>
        if level ≤ uv.stackSlot then
          match uv.close mem with
          | none => none
          | some uvC =>
            closeUpvalues mem level
              (fun q => if q = hd then some { uvC with openNext := 0 } else h q) uv.openNext fuel
        else some (hd, h)

/-- `struct LuaClosure`: the inline `UpVal*` array (only the part the claims
exercise). -/
structure LuaClosure where
  upvals : List Nat
deriving DecidableEq, Repr

namespace LuaClosure

/-- `LuaClosure::getUpval(i)`: `upvals[i]->get()` (the `assert(i < n)` and a
dangling pointer are `none`). -/
def getUpval (h : UVHeap) (mem : Mem) (c : LuaClosure) (i : Nat) : Option TValue :=
  match c.upvals.get? i with
  | none => none
  | some p => (h p).map (fun uv => uv.uvGet mem)

/-- `LuaClosure::setUpval(i, v)`: `upvals[i]->set(v)`. -/
def setUpval (h : UVHeap) (mem : Mem) (c : LuaClosure) (i : Nat) (v : TValue) :
    Option (UVHeap × Mem) :=
  match c.upvals.get? i with
  | none => none
  | some p => uvSet h mem p v

end LuaClosure

/-- The open list as a chain of pointers through `openNext`, ending at null. -/
inductive UVChain : UVHeap → Nat → List Nat → Prop where
  | nil (h : UVHeap) : UVChain h 0 []
  | cons {h : UVHeap} {p : Nat} {L : List Nat} (uv : UpVal) :
      p ≠ 0 → h p = some uv → UVChain h uv.openNext L → UVChain h p (p :: L)

/-- The stack slot an open-list member targets. -/
def slotOf (h : UVHeap) (p : Nat) : Nat :=
  match h p with
  | some uv => uv.stackSlot
  | none => 0

/-! Metamethod dispatch (`get_metamethod` and the `TValue` arithmetic
operators).  Tables are reached through pointers, so a table heap is ambient;
`FuncType` objects (`std::function`) likewise live behind pointers, a null or
empty one making `call` return Nil.  The double arithmetic itself, the
`strtod` parse and the exact `int32→double` conversion are parameters
(`FloatOps`): the dispatch structure under verification does not depend on
rounding. -/

abbrev TableHeap := Nat → Option LuaTable
abbrev FuncHeap := Nat → Option (TValue → TValue → TValue)

structure FloatOps where
  dadd : Nat → Nat → Nat
  dsub : Nat → Nat → Nat
  dmul : Nat → Nat → Nat
  ddiv : Nat → Nat → Nat
  strtodFull : List Nat → Option Nat
  encInt32 : Nat → Nat

/-- `TValue::asNumber`: numbers directly, integers converted, full-string
`strtod` parses, `0.0` otherwise (bit pattern `0`). -/
def asNumber (sh : StrHeap) (fops : FloatOps) (v : TValue) : Nat :=
  if v.isNumber then v.bits
  else if v.isInteger then fops.encInt32 v.toInteger
  else if v.isString then
    match fops.strtodFull (sh v.toPtr) with
    | some d => d
    | none => 0
  else 0

/-- `TValue::call(a, b)`: invoke when the value is a Function with a non-null,
non-empty `FuncType`, Nil otherwise. -/
def callTV (fh : FuncHeap) (f a b : TValue) : TValue :=
  if f.isFunction then
    match fh f.toPtr with
    | some fn => fn a b
    | none => TValue.nilV
  else TValue.nilV

/-- One operand's side of `get_metamethod`: if it is a table with a metatable,
`rawget` the name in that metatable; `some (some mm)` is a non-nil hit,
`some none` no hit, `none` divergence/UB. -/
def mtLookup (sh : StrHeap) (th : TableHeap) (v : TValue) (namePtr : Nat) :
    Option (Option TValue) :=
  if v.isTable then
    match th v.toPtr with
    | none => none
    | some t =>
      if t.metatable == 0 then some none
      else
        match th t.metatable with
        | none => none
        | some mt =>
          match mt.rawget sh (TValue.stringV namePtr) with
          | none => none
          | some mm => some (if mm.isNil then none else some mm)
  else some none

/-- `get_metamethod(a, b, name)`: try `a`'s metatable first, then `b`'s. -/
def get_metamethod (sh : StrHeap) (th : TableHeap) (a b : TValue) (namePtr : Nat) :
    Option (Option TValue) :=
  match mtLookup sh th a namePtr with
  | none => none
  | some (some mm) => some (some mm)
  | some none => mtLookup sh th b namePtr

inductive ArithOp where
  | add
  | sub
  | mul
  | div
deriving DecidableEq, Repr

/-- The double operation each operator falls back to. -/
def fOp (fops : FloatOps) : ArithOp → Nat → Nat → Nat
  | .add => fops.dadd
  | .sub => fops.dsub
  | .mul => fops.dmul
  | .div => fops.ddiv

/-- `TValue::operator+ - * /` (`mmName op` is the address of the operator's
metamethod name literal, `"__add"` etc.). -/
def tvArith (sh : StrHeap) (th : TableHeap) (fh : FuncHeap) (fops : FloatOps)
    (mmName : ArithOp → Nat) (op : ArithOp) (a b : TValue) : Option TValue :=
  if a.isTable || b.isTable then
    match get_metamethod sh th a b (mmName op) with
    | none => none
    | some (some mm) => some (callTV fh mm a b)
    | some none =>
      some (TValue.numV (fOp fops op (asNumber sh fops a) (asNumber sh fops b)))
  else some (TValue.numV (fOp fops op (asNumber sh fops a) (asNumber sh fops b)))

/-! Specification-side dispatch, for the refinement comparison of C5. -/

/-- Modelled from the spec (§4.4): "a raw (non-recursive) hit" of the
operator's key in one operand's metatable, when that operand is a table that
has one. -/
def specRawHit (sh : StrHeap) (th : TableHeap) (namePtr : Nat) (v : TValue) :
    Option (Option TValue) :=
  if v.isTable then
    match th v.toPtr with
    | none => none
    | some t =>
      if t.metatable == 0 then some none
      else
        match th t.metatable with
        | none => none
        | some mt =>
          match mt.rawget sh (TValue.stringV namePtr) with
          | none => none
          | some mm => some (if mm.isNil then none else some mm)
  else some none

/-- Modelled from the spec (§4.4): "look up an operator-specific string key
first in the first operand's metatable, then the second's; the first table
with a raw hit supplies the handler" — the first candidate in the list with a
raw hit. -/
def specFirstHit (sh : StrHeap) (th : TableHeap) (namePtr : Nat) :
    List TValue → Option (Option TValue)
  | [] => some none
  | v :: rest =>
    match specRawHit sh th namePtr v with
    | none => none
    | some (some mm) => some (some mm)
    | some none => specFirstHit sh th namePtr rest

/-- Modelled from the spec (§4.1/§4.4): arithmetic operators "first check
whether either operand is a Table; if so, dispatch to the metamethod protocol
... the handler ... is invoked with both original operands and its result
becomes the operation's result.  If neither operand is a Table, or no handler
is found, the operator falls back to numeric coercion of both operands". -/
def specArith (sh : StrHeap) (th : TableHeap) (fh : FuncHeap) (fops : FloatOps)
    (mmName : ArithOp → Nat) (op : ArithOp) (a b : TValue) : Option TValue :=
  if a.isTable || b.isTable then
    match specFirstHit sh th (mmName op) [a, b] with
    | none => none
    | some (some handler) => some (callTV fh handler a b)
    | some none =>
      some (TValue.numV (fOp fops op (asNumber sh fops a) (asNumber sh fops b)))
  else some (TValue.numV (fOp fops op (asNumber sh fops a) (asNumber sh fops b)))

/-! Auxiliary definitions for the verification: representation invariant of the
hash part, insertion sequences, and the concrete objects the claims are
evaluated at. -/

/-- Number of live (non-negative) control bytes. -/
def liveCtrl (l : List Int) : Nat := (l.filter (fun c => decide (0 ≤ c))).length

/-- Representation invariant of a hash part as the table operations maintain
it: array lengths match `capacity`, `capacity` is `16 * numGroups` and either
`0` or a power-of-two multiple of 16 bounded by the reachable range, and
`count` counts the live control bytes. -/
def HashPart.WFr (hp : HashPart) : Prop :=
  hp.ctrl.length = hp.capacity ∧
  hp.slots.length = hp.capacity ∧
  hp.capacity = 16 * hp.numGroups ∧
  (hp.capacity = 0 ∨ ∃ k, hp.capacity = 16 * 2 ^ k) ∧
  hp.capacity ≤ 2 ^ 31 ∧
  hp.count = liveCtrl hp.ctrl

/-- A sequence of insertions into the table's hash part. -/
def hashSetSeq (sh : StrHeap) : List (TValue × TValue) → LuaTable → Option LuaTable
  | [], t => some t
  | kv :: rest, t =>
    match t.hashSet sh kv.1 kv.2 with
    | none => none
    | some t' => hashSetSeq sh rest t'

/-- The empty byte heap. -/
def shEmpty : StrHeap := fun _ => []

/-- Byte heap with the one-byte string `"a"` at pointer 1. -/
def shA : StrHeap := fun p => if p = 1 then [97] else []

/-- Byte heap with the same one-byte string `"x"` behind two distinct
pointers. -/
def shXX : StrHeap := fun p => if p = 1 ∨ p = 2 then [120] else []

/-- The table of C1's failing input: key 1 set (array part now has 16 slots),
then the exact-integer float key `2.0` set to `Integer 20`. -/
def c1Table : Option LuaTable :=
  (LuaTable.rawset shEmpty LuaTable.empty (TValue.intV 1) (TValue.intV 10)).bind fun t1 =>
    LuaTable.rawset shEmpty t1 (TValue.numV 0x4000000000000000) (TValue.intV 20)

/-- The table of C7's failing input: string key `"a"` set to `Integer 1`, then
set to nil. -/
def c7Table : Option LuaTable :=
  (LuaTable.rawset shA LuaTable.empty (TValue.stringV 1) (TValue.intV 1)).bind fun t1 =>
    LuaTable.rawset shA t1 (TValue.stringV 1) TValue.nilV

/-- The array contents of the C6 scenario after `n` in-order inserts, padded
with nils to the allocated size. -/
def c6Arr (vs : Nat → TValue) (n pad : Nat) : List TValue :=
  (List.range n).map (fun j => vs (j + 1)) ++ List.replicate pad TValue.nilV

/-- Closed form of the C6 scenario's table state after inserting keys
`1..n`. -/
def c6State (vs : Nat → TValue) (n : Nat) : LuaTable :=
  if n = 0 then LuaTable.empty
  else if n ≤ 16 then ⟨c6Arr vs n (16 - n), 16, n, ⟨[], [], 0, 0, 0⟩, 0⟩
  else ⟨c6Arr vs n (32 - n), 32, n, ⟨[], [], 0, 0, 0⟩, 0⟩

/-- A closed upvalue (for the witness of the double-close claim). -/
def uvClosed0 : UpVal := ⟨.ownClosed, .Closed, 0, 0, TValue.intV 7⟩

/-- An all-nil stack. -/
def memNil : Mem := fun _ => TValue.nilV

/-- An open upvalue at stack slot 5, for concrete open-list witnesses. -/
def uvOpen5 : UpVal := ⟨.stackPtr 5, .Open, 0, 5, TValue.nilV⟩

/-- A heap whose open list is the single open upvalue `uvOpen5` at pointer 1. -/
def heap1 : UVHeap := fun q => if q = 1 then some uvOpen5 else none

def c3wTable : LuaTable :=
  (hashSetSeq shEmpty [(TValue.stringV 1, TValue.intV 5)] LuaTable.empty).getD LuaTable.empty

def heap2 : UVHeap := fun q => if q = 3 then some uvClosed0 else none

def cShared : LuaClosure := ⟨[3]⟩

def setRes2 : Option (UVHeap × Mem) := LuaClosure.setUpval heap2 memNil cShared 0 (TValue.intV 9)

def heap2' : UVHeap := (setRes2.getD (heap2, memNil)).1

def mem2' : Mem := (setRes2.getD (heap2, memNil)).2

def uvClosed5 : UpVal := ⟨ValPtr.ownClosed, UVState.Closed, 0, 0, TValue.nilV⟩

def heap1Closed : UVHeap := fun q => if q = 1 then some uvClosed5 else heap1 q

def c6wVals : Nat → TValue := fun j => TValue.intV (100 + j)

/-! Theorems.  First, bit-level facts about the NaN-box tag algebra. -/

theorem land_or_highmask {t m x : Nat} (hm : ∀ i < 47, m.testBit i = false)
    (hx : x < 2 ^ 47) : (t ||| x) &&& m = t &&& m := by
  apply Nat.eq_of_testBit_eq
  intro i
  simp only [Nat.testBit_land, Nat.testBit_lor]
  rcases lt_or_le i 47 with h | h
  · simp [hm i h]
  · have hxi : x.testBit i = false :=
      Nat.testBit_lt_two_pow (lt_of_lt_of_le hx (Nat.pow_le_pow_right (by norm_num) h))
    simp [hxi]

theorem land_or_lowmask {t x n : Nat} (ht : ∀ i < n, t.testBit i = false)
    (hx : x < 2 ^ n) : (t ||| x) &&& (2 ^ n - 1) = x := by
  apply Nat.eq_of_testBit_eq
  intro i
  simp only [Nat.testBit_land, Nat.testBit_lor, Nat.testBit_two_pow_sub_one]
  rcases lt_or_le i n with h | h
  · simp [ht i h, h]
  · have hxi : x.testBit i = false :=
      Nat.testBit_lt_two_pow (lt_of_lt_of_le hx (Nat.pow_le_pow_right (by norm_num) h))
    simp [hxi, Nat.not_lt.mpr h]

namespace TValue

theorem intV_payload_lt (i : Nat) : i % U32 < 2 ^ 47 :=
  lt_of_lt_of_le (Nat.mod_lt _ (by norm_num [U32])) (by norm_num [U32])

@[simp] theorem isInteger_intV (i : Nat) : (intV i).isInteger = true := by
  have h := land_or_highmask (t := TAG_INT) (m := TAG_MASK)
    (by decide) (intV_payload_lt i)
  simp [isInteger, intV, h]
  decide

@[simp] theorem isNil_intV (i : Nat) : (intV i).isNil = false := by
  simp only [isNil, intV, beq_eq_false_iff_ne, ne_eq]
  intro h
  have h47 := congrArg (Nat.testBit · 47) h
  simp only [Nat.testBit_lor] at h47
  have hx : (i % U32).testBit 47 = false :=
    Nat.testBit_lt_two_pow (intV_payload_lt i)
  rw [hx] at h47
  revert h47
  decide

@[simp] theorem isNumber_intV (i : Nat) : (intV i).isNumber = false := by
  have h := land_or_highmask (t := TAG_INT) (m := NANBOX_BASE)
    (by decide) (intV_payload_lt i)
  simp [isNumber, intV, h]
  decide

theorem mod_U32_lt (i : Nat) : i % U32 < 2 ^ 32 :=
  Nat.mod_lt i (by norm_num [U32])

@[simp] theorem toInteger_intV (i : Nat) : (intV i).toInteger = i % U32 := by
  show (TAG_INT ||| i % U32) &&& 0xffffffff = i % U32
  have h : (0xffffffff : Nat) = 2 ^ 32 - 1 := by norm_num
  rw [h]
  exact land_or_lowmask (t := TAG_INT) (n := 32) (by decide) (mod_U32_lt i)

end TValue

namespace TValue

@[simp] theorem isString_intV (i : Nat) : (intV i).isString = false := by
  have h := land_or_highmask (t := TAG_INT) (m := TAG_MASK) (by decide) (intV_payload_lt i)
  simp [isString, intV, h]
  decide

@[simp] theorem isTable_intV (i : Nat) : (intV i).isTable = false := by
  have h := land_or_highmask (t := TAG_INT) (m := TAG_MASK) (by decide) (intV_payload_lt i)
  simp [isTable, intV, h]
  decide

theorem stringV_payload_lt (p : Nat) : p &&& POINTER_MASK < 2 ^ 47 :=
  lt_of_le_of_lt Nat.and_le_right (by norm_num [POINTER_MASK])

@[simp] theorem isString_stringV (p : Nat) : (stringV p).isString = true := by
  have h := land_or_highmask (t := TAG_STRING) (m := TAG_MASK) (by decide) (stringV_payload_lt p)
  simp [isString, stringV, h]
  decide

@[simp] theorem isNil_stringV (p : Nat) : (stringV p).isNil = false := by
  simp only [isNil, stringV, beq_eq_false_iff_ne, ne_eq]
  intro h
  have h47 := congrArg (Nat.testBit · 50) h
  simp only [Nat.testBit_lor] at h47
  have hx : (p &&& POINTER_MASK).testBit 50 = false :=
    Nat.testBit_lt_two_pow (lt_of_lt_of_le (stringV_payload_lt p) (by norm_num))
  rw [hx] at h47
  revert h47
  decide

@[simp] theorem isInteger_stringV (p : Nat) : (stringV p).isInteger = false := by
  have h := land_or_highmask (t := TAG_STRING) (m := TAG_MASK) (by decide) (stringV_payload_lt p)
  simp [isInteger, stringV, h]
  decide

@[simp] theorem isNumber_stringV (p : Nat) : (stringV p).isNumber = false := by
  have h := land_or_highmask (t := TAG_STRING) (m := NANBOX_BASE) (by decide) (stringV_payload_lt p)
  simp [isNumber, stringV, h]
  decide

@[simp] theorem isTable_stringV (p : Nat) : (stringV p).isTable = false := by
  have h := land_or_highmask (t := TAG_STRING) (m := TAG_MASK) (by decide) (stringV_payload_lt p)
  simp [isTable, stringV, h]
  decide

@[simp] theorem toPtr_stringV (p : Nat) : (stringV p).toPtr = p &&& POINTER_MASK := by
  show (TAG_STRING ||| (p &&& POINTER_MASK)) &&& POINTER_MASK = p &&& POINTER_MASK
  have h : POINTER_MASK = 2 ^ 47 - 1 := by norm_num [POINTER_MASK]
  rw [h]
  exact land_or_lowmask (t := TAG_STRING) (n := 47) (by decide)
    (h ▸ stringV_payload_lt p)

/-- `v == v` is true (same bits). -/
@[simp] theorem tvEq_self (sh : StrHeap) (v : TValue) : tvEq sh v v = true := by
  simp [tvEq]

end TValue

/-! Small `uint32_t` arithmetic helpers. -/

theorem u32inc_small {n : Nat} (h : n + 1 < U32) : u32inc n = n + 1 := by
  simp [u32inc, Nat.mod_eq_of_lt h]

theorem u32dec_small {n : Nat} (h1 : 1 ≤ n) (h2 : n < U32) : u32dec n = n - 1 := by
  have : n + (U32 - 1) = (n - 1) + 1 * U32 := by omega
  simp [u32dec, this, Nat.add_mul_mod_self_right, Nat.mod_eq_of_lt (by omega : n - 1 < U32)]

/-- The array index `(uint32_t)(toInteger - 1)` of a small positive integer
key. -/
theorem idx_of_small {n : Nat} (h1 : 1 ≤ n) (h2 : n < U32) :
    (n + (U32 - 1)) % U32 = n - 1 := by
  have : n + (U32 - 1) = (n - 1) + 1 * U32 := by omega
  simp [this, Nat.add_mul_mod_self_right, Nat.mod_eq_of_lt (by omega : n - 1 < U32)]

/-! C5: metamethod dispatch refines the spec's description. -/

theorem specFirstHit_pair (sh : StrHeap) (th : TableHeap) (n : Nat) (a b : TValue) :
    specFirstHit sh th n [a, b] = get_metamethod sh th a b n := by
  have hraw : ∀ v, specRawHit sh th n v = mtLookup sh th v n := fun _ => rfl
  rcases hA : mtLookup sh th a n with _ | mmA
  · simp [specFirstHit, get_metamethod, hraw, hA]
  · rcases mmA with _ | m
    · rcases hB : mtLookup sh th b n with _ | mmB
      · simp [specFirstHit, get_metamethod, hraw, hA, hB]
      · rcases mmB with _ | m2 <;> simp [specFirstHit, get_metamethod, hraw, hA, hB]
    · simp [specFirstHit, get_metamethod, hraw, hA]

/-- C5: for every binary arithmetic operator, the source operator equals the
spec-side dispatch: table operands trigger the a-then-b raw metamethod lookup
and the found handler's invocation; otherwise the result is double arithmetic
on the numeric coercion of both operands. -/
theorem c5_arith_metamethod_dispatch (sh : StrHeap) (th : TableHeap) (fh : FuncHeap)
    (fops : FloatOps) (mmName : ArithOp → Nat) (op : ArithOp) (a b : TValue) :
    tvArith sh th fh fops mmName op a b = specArith sh th fh fops mmName op a b := by
  unfold tvArith specArith
  rw [specFirstHit_pair]

/-! C8: nil-key behaviour. -/

theorem c8_counterexample :
    LuaTable.rawget shEmpty LuaTable.empty TValue.nilV = some TValue.nilV := by decide

theorem c8_nil_key_amended :
    (∀ (sh : StrHeap) (t : LuaTable) (v : TValue), t.rawset sh TValue.nilV v = none) ∧
    (∀ sh : StrHeap, LuaTable.rawget sh LuaTable.empty TValue.nilV = some TValue.nilV) :=
  ⟨fun _ _ _ => rfl, fun _ => rfl⟩

/-! C9: a second close on a Closed upvalue is rejected by the assertion. -/

theorem c9_double_close_rejected (uv : UpVal) (mem : Mem) (h : uv.state = UVState.Closed) :
    uv.close mem = none := by
  simp [UpVal.close, h]

theorem c9_double_close_rejected_witness : uvClosed0.close memNil = none :=
  c9_double_close_rejected uvClosed0 memNil rfl

/-! C10: inequality versus equality. -/

theorem c10_counterexample :
    ¬(TValue.tvNeq (TValue.stringV 1) (TValue.stringV 2) =
      (!TValue.tvEq shXX (TValue.stringV 1) (TValue.stringV 2))) := by decide

theorem c10_neq_is_bits_amended (sh : StrHeap) (a b : TValue) :
    (TValue.tvNeq a b = true ↔ a.bits ≠ b.bits) ∧
    (TValue.tvNeq a b ≠ (!TValue.tvEq sh a b) →
      a.isString = true ∧ b.isString = true ∧ a.bits ≠ b.bits ∧
      sh a.toPtr = sh b.toPtr ∧ TValue.tvEq sh a b = true ∧ TValue.tvNeq a b = true) := by
  constructor
  · simp [TValue.tvNeq]
  · intro hdiff
    by_cases hb : a.bits = b.bits
    · exact absurd (by simp [TValue.tvNeq, TValue.tvEq, hb]) hdiff
    · have hneq : TValue.tvNeq a b = true := by simp [TValue.tvNeq, hb]
      by_cases hsa : a.isString = true
      · by_cases hsb : b.isString = true
        · by_cases hc : sh a.toPtr = sh b.toPtr
          · exact ⟨hsa, hsb, hb, hc, by simp [TValue.tvEq, hb, hsa, hsb, hc], hneq⟩
          · exact absurd (by
              have h1 : (a.bits != b.bits) = true := bne_iff_ne.mpr hb
              have h2 : (sh a.toPtr == sh b.toPtr) = false := beq_eq_false_iff_ne.mpr hc
              simp [TValue.tvNeq, TValue.tvEq, hb, hsa, hsb, h1, h2]) hdiff
        · exact absurd (by simp [TValue.tvNeq, TValue.tvEq, hb, hsb]) hdiff
      · exact absurd (by simp [TValue.tvNeq, TValue.tvEq, hb, hsa]) hdiff

theorem c10_amended_witness :
    (TValue.stringV 1).isString = true ∧ (TValue.stringV 2).isString = true ∧
    (TValue.stringV 1).bits ≠ (TValue.stringV 2).bits ∧
    shXX (TValue.stringV 1).toPtr = shXX (TValue.stringV 2).toPtr ∧
    TValue.tvEq shXX (TValue.stringV 1) (TValue.stringV 2) = true ∧
    TValue.tvNeq (TValue.stringV 1) (TValue.stringV 2) = true :=
  (c10_neq_is_bits_amended shXX (TValue.stringV 1) (TValue.stringV 2)).2 (by decide)

/-! C1: the float-key round trip fails on the code. -/

theorem c1_float_key_roundtrip_fails :
    (c1Table.bind fun t => t.rawget shEmpty (TValue.numV 0x4000000000000000)) =
      some TValue.nilV ∧
    (c1Table.bind fun t => t.hashLookup shEmpty (TValue.intV 2)) = some (TValue.intV 20) ∧
    TValue.tvEq shEmpty TValue.nilV (TValue.intV 20) = false := by decide

/-! C7: a nil write to a hash-part key does not tombstone the control byte. -/

theorem c7_nil_write_leaves_ctrl_live :
    (c7Table.map fun t => ((t.hash.ctrl.filter fun c => decide (0 ≤ c)).length,
                           (t.hash.ctrl.filter fun c => c == CTRL_DELETED).length,
                           t.hash.count)) = some (1, 0, 0) ∧
    (c7Table.bind fun t => t.rawget shA (TValue.stringV 1)) = some TValue.nilV := by decide

/-! C3: load-factor invariant.  Counting lemmas for the Swiss-table probe. -/

theorem upsertLoop_zero (sh : StrHeap) (hp : HashPart) (key : TValue) (h2v : Int)
    (g : Nat) (fa : Option Nat) :
    HashPart.upsertLoop sh hp key h2v g fa 0 = .diverge := rfl

theorem upsertLoop_succ (sh : StrHeap) (hp : HashPart) (key : TValue) (h2v : Int)
    (g : Nat) (fa : Option Nat) (n : Nat) :
    HashPart.upsertLoop sh hp key h2v g fa (n + 1) =
      (match HashPart.scanGroup sh hp g h2v key with
       | some i => .existing (16 * g + i)
       | none =>
         let fa' := match fa with
           | some x => some x
           | none => (hp.availG g).map (fun i => 16 * g + i)
         if hp.hasEmptyG g then
           match fa' with
           | some idx => .insertAt idx
           | none => .diverge
         else HashPart.upsertLoop sh hp key h2v ((g + 1) &&& (hp.numGroups - 1)) fa' n) := rfl


theorem liveCtrl_set_of_neg {l : List Int} {idx : Nat} {v : Int}
    (hlt : idx < l.length) (hneg : l.getD idx CTRL_EMPTY < 0) (hv : 0 ≤ v) :
    liveCtrl (l.set idx v) = liveCtrl l + 1 := by
  induction l generalizing idx with
  | nil => simp at hlt
  | cons a tl ih =>
    cases idx with
    | zero =>
      simp only [List.getD_cons_zero] at hneg
      simp [liveCtrl, List.filter, decide_eq_true_eq, hv,
        show ¬(0 ≤ a) from not_le.mpr hneg]
    | succ n =>
      simp only [List.getD_cons_succ] at hneg
      have := ih (Nat.lt_of_succ_lt_succ hlt) hneg
      simp only [List.set_cons_succ, liveCtrl, List.filter] at this ⊢
      cases decide (0 ≤ a) <;> simp_all [liveCtrl]

theorem availG_some {hp : HashPart} {g i : Nat} (h : hp.availG g = some i) :
    i < 16 ∧ hp.ctrlAt (16 * g + i) < 0 := by
  have hmem := List.mem_of_find?_eq_some h
  have hpred := List.find?_some h
  simp only [List.mem_range] at hmem
  simp only [decide_eq_true_eq] at hpred
  exact ⟨hmem, hpred⟩

theorem upsertLoop_insertAt {sh : StrHeap} {hp : HashPart} {key : TValue} {h2v : Int} :
    ∀ (fuel g : Nat) (fa : Option Nat) (idx : Nat),
      g < hp.numGroups →
      (∀ j, fa = some j → j < 16 * hp.numGroups ∧ hp.ctrlAt j < 0) →
      HashPart.upsertLoop sh hp key h2v g fa fuel = .insertAt idx →
      idx < 16 * hp.numGroups ∧ hp.ctrlAt idx < 0 := by
  intro fuel
  induction fuel with
  | zero => intro g fa idx _ _ h; simp [upsertLoop_zero] at h
  | succ n ih =>
    intro g fa idx hg hfa h
    rw [upsertLoop_succ] at h
    rcases hscan : HashPart.scanGroup sh hp g h2v key with _ | i
    · rw [hscan] at h
      simp only at h
      have hfa' : ∀ j, (match fa with
          | some x => some x
          | none => (hp.availG g).map (fun i => 16 * g + i)) = some j →
          j < 16 * hp.numGroups ∧ hp.ctrlAt j < 0 := by
        intro j hj
        cases fa with
        | some x => exact hfa j hj
        | none =>
          simp only [Option.map_eq_some'] at hj
          obtain ⟨i0, hi0, rfl⟩ := hj
          obtain ⟨hi0lt, hi0neg⟩ := availG_some hi0
          exact ⟨by
            calc 16 * g + i0 < 16 * g + 16 := by omega
            _ ≤ 16 * hp.numGroups := by omega, hi0neg⟩
      by_cases hemp : hp.hasEmptyG g = true
      · rw [hemp] at h
        simp only [if_true] at h
        rcases hfa2 : (match fa with
            | some x => some x
            | none => (hp.availG g).map (fun i => 16 * g + i)) with _ | j
        · rw [hfa2] at h; simp at h
        · rw [hfa2] at h
          injection h with h2
          subst h2
          exact hfa' _ hfa2
      · rw [Bool.not_eq_true] at hemp
        rw [hemp] at h
        simp only [if_false, Bool.false_eq_true] at h
        have hg' : (g + 1) &&& (hp.numGroups - 1) < hp.numGroups :=
          lt_of_le_of_lt Nat.and_le_right (by omega)
        exact ih _ _ idx hg' hfa' h
    · rw [hscan] at h; simp at h

theorem upsert_none_of_zero {sh : StrHeap} {hp : HashPart} {key : TValue}
    (h : hp.numGroups = 0) : HashPart.upsert sh hp key = none := by
  simp [HashPart.upsert, h, upsertLoop_zero]

theorem upsert_cases {sh : StrHeap} {hp : HashPart} {key : TValue} {hp1 : HashPart} {idx : Nat}
    (hg : 0 < hp.numGroups) (h : HashPart.upsert sh hp key = some (hp1, idx)) :
    hp1 = hp ∨
    (idx < 16 * hp.numGroups ∧ hp.ctrlAt idx < 0 ∧
     hp1.ctrl = hp.ctrl.set idx (HashPart.h2of (hashTValue sh key)) ∧
     hp1.slots = hp.slots.set idx (key, TValue.nilV) ∧
     hp1.count = u32inc hp.count ∧ hp1.capacity = hp.capacity ∧
     hp1.numGroups = hp.numGroups) := by
  unfold HashPart.upsert at h
  dsimp only at h
  split at h
  next => simp at h
  next i hloop =>
    simp only [Option.some.injEq, Prod.mk.injEq] at h
    exact Or.inl h.1.symm
  next i hloop =>
    simp only [Option.some.injEq, Prod.mk.injEq] at h
    obtain ⟨hhp, hidx⟩ := h
    subst hidx
    have hfacts := upsertLoop_insertAt hp.numGroups (hp.h1 (hashTValue sh key)) none i
      (Nat.mod_lt _ hg) (by intro j hj; simp at hj) hloop
    right
    refine ⟨hfacts.1, hfacts.2, ?_, ?_, ?_, ?_, ?_⟩ <;> rw [← hhp]

theorem setSlotVal_fields (hp : HashPart) (idx : Nat) (v : TValue) :
    (hp.setSlotVal idx v).ctrl = hp.ctrl ∧
    (hp.setSlotVal idx v).count = hp.count ∧
    (hp.setSlotVal idx v).capacity = hp.capacity ∧
    (hp.setSlotVal idx v).numGroups = hp.numGroups ∧
    (hp.setSlotVal idx v).slots.length = hp.slots.length := by
  simp [HashPart.setSlotVal]

theorem rebuildLoop_nil (sh : StrHeap) (old acc : HashPart) :
    LuaTable.rebuildLoop sh old [] acc = some acc := rfl

theorem rebuildLoop_cons (sh : StrHeap) (old acc : HashPart) (j : Nat) (rest : List Nat) :
    LuaTable.rebuildLoop sh old (j :: rest) acc =
      (if 0 ≤ old.ctrlAt j then
        match HashPart.upsert sh acc (old.slotAt j).1 with
        | none => none
        | some (hp1, idx) =>
          LuaTable.rebuildLoop sh old rest (hp1.setSlotVal idx (old.slotAt j).2)
      else LuaTable.rebuildLoop sh old rest acc) := rfl

theorem h2of_nonneg (h : Nat) : 0 ≤ HashPart.h2of h := Int.natCast_nonneg _

theorem rebuildLoop_facts {sh : StrHeap} {old : HashPart} :
    ∀ (js : List Nat) (acc hp' : HashPart),
      LuaTable.rebuildLoop sh old js acc = some hp' →
      acc.count = liveCtrl acc.ctrl →
      acc.ctrl.length = acc.capacity →
      acc.slots.length = acc.capacity →
      acc.capacity = 16 * acc.numGroups →
      acc.count + js.length < U32 →
      hp'.count = liveCtrl hp'.ctrl ∧ hp'.count ≤ acc.count + js.length ∧
      hp'.capacity = acc.capacity ∧ hp'.ctrl.length = acc.capacity ∧
      hp'.slots.length = acc.capacity ∧ hp'.numGroups = acc.numGroups := by
  intro js
  induction js with
  | nil =>
    intro acc hp' h hcnt hcl hsl hcap _
    rw [rebuildLoop_nil] at h
    obtain rfl : acc = hp' := by injection h
    exact ⟨hcnt, by omega, rfl, hcl, hsl, rfl⟩
  | cons j rest ih =>
    intro acc hp' h hcnt hcl hsl hcap hbound
    rw [rebuildLoop_cons] at h
    by_cases hlive : 0 ≤ old.ctrlAt j
    · rw [if_pos hlive] at h
      rcases hup : HashPart.upsert sh acc (old.slotAt j).1 with _ | ⟨hp1, idx⟩
      · rw [hup] at h; simp at h
      · rw [hup] at h
        dsimp only at h
        rcases Nat.eq_zero_or_pos acc.numGroups with hng | hng
        · rw [upsert_none_of_zero hng] at hup; simp at hup
        rcases upsert_cases hng hup with heq | ⟨hidx, hneg, hctrl, hslots, hcount, hcap1, hng1⟩
        · rw [heq] at h
          have hres := ih (acc.setSlotVal idx (old.slotAt j).2) hp' h
            (by simp [HashPart.setSlotVal, hcnt])
            (by simp [HashPart.setSlotVal, hcl])
            (by simp [HashPart.setSlotVal, hsl])
            (by simp [HashPart.setSlotVal, hcap])
            (by simp only [HashPart.setSlotVal, List.length_cons] at hbound ⊢; omega)
          simp only [HashPart.setSlotVal] at hres
          refine ⟨hres.1, ?_, hres.2.2.1, hres.2.2.2.1, hres.2.2.2.2.1, hres.2.2.2.2.2⟩
          have := hres.2.1
          simp only [List.length_cons]
          omega
        · have hclt : acc.count + 1 < U32 := by
            simp only [List.length_cons] at hbound; omega
          have hinc : hp1.count = acc.count + 1 := by
            rw [hcount, u32inc_small hclt]
          have hlive1 : liveCtrl hp1.ctrl = liveCtrl acc.ctrl + 1 := by
            rw [hctrl]
            exact liveCtrl_set_of_neg (by rw [hcl, hcap]; exact hidx) hneg (h2of_nonneg _)
          have hres := ih (hp1.setSlotVal idx (old.slotAt j).2) hp' h
            (by simp [HashPart.setSlotVal, hinc, hlive1, hcnt])
            (by simp [HashPart.setSlotVal, hctrl, hcap1, hcl])
            (by simp [HashPart.setSlotVal, hslots, hcap1, hsl])
            (by simp [HashPart.setSlotVal, hcap1, hng1, hcap])
            (by simp only [HashPart.setSlotVal, List.length_cons, hinc] at hbound ⊢; omega)
          simp only [HashPart.setSlotVal] at hres
          rw [hcap1] at hres
          refine ⟨hres.1, ?_, hres.2.2.1, hres.2.2.2.1, hres.2.2.2.2.1, ?_⟩
          · have := hres.2.1
            rw [hinc] at this
            simp only [List.length_cons]
            omega
          · rw [hres.2.2.2.2.2, hng1]
    · rw [if_neg hlive] at h
      have hres := ih acc hp' h hcnt hcl hsl hcap
        (by simp only [List.length_cons] at hbound; omega)
      refine ⟨hres.1, ?_, hres.2.2.1, hres.2.2.2.1, hres.2.2.2.2.1, hres.2.2.2.2.2⟩
      have := hres.2.1
      simp only [List.length_cons]
      omega

theorem liveCtrl_replicate_empty (n : Nat) :
    liveCtrl (List.replicate n CTRL_EMPTY) = 0 := by
  induction n with
  | zero => rfl
  | succ m _ => simp [List.replicate_succ, liveCtrl, List.filter, CTRL_EMPTY]

theorem cap_double_facts {cap : Nat} (hk : ∃ k, cap = 16 * 2 ^ k) (hle : cap ≤ 2 ^ 31) :
    (cap * 2 % U32 = 2 * cap ∧ cap * 2 % U32 ≤ 2 ^ 31 ∧ ∃ k, cap * 2 % U32 = 16 * 2 ^ k) ∨
    (cap = 2 ^ 31 ∧ cap * 2 % U32 = 0) := by
  obtain ⟨k, rfl⟩ := hk
  have hpow : 16 * 2 ^ k = 2 ^ (k + 4) := by rw [pow_add]; ring
  by_cases h31 : 16 * 2 ^ k = 2 ^ 31
  · right
    refine ⟨h31, ?_⟩
    rw [h31]
    norm_num [U32]
  · left
    have hklt : k + 4 < 31 := by
      rw [hpow] at hle h31
      rcases lt_or_eq_of_le hle with hlt | heq
      · exact (Nat.pow_lt_pow_iff_right (by norm_num)).mp hlt
      · exact absurd heq h31
    have hdle : 16 * 2 ^ k * 2 = 2 ^ (k + 5) := by rw [pow_add]; ring
    have hsmall : 2 ^ (k + 5) < U32 := by
      have : k + 5 ≤ 31 := by omega
      calc 2 ^ (k + 5) ≤ 2 ^ 31 := Nat.pow_le_pow_right (by norm_num) this
      _ < U32 := by norm_num [U32]
    rw [hdle, Nat.mod_eq_of_lt hsmall]
    refine ⟨by rw [← hdle]; ring, ?_, ⟨k + 1, ?_⟩⟩
    · exact Nat.pow_le_pow_right (by norm_num) (by omega)
    · rw [pow_add]; ring

theorem setSlotVal_ctrl (hp : HashPart) (idx : Nat) (v : TValue) :
    (hp.setSlotVal idx v).ctrl = hp.ctrl := rfl

theorem setSlotVal_capacity (hp : HashPart) (idx : Nat) (v : TValue) :
    (hp.setSlotVal idx v).capacity = hp.capacity := rfl

theorem setSlotVal_count (hp : HashPart) (idx : Nat) (v : TValue) :
    (hp.setSlotVal idx v).count = hp.count := rfl

theorem setSlotVal_numGroups (hp : HashPart) (idx : Nat) (v : TValue) :
    (hp.setSlotVal idx v).numGroups = hp.numGroups := rfl

theorem setSlotVal_slots_length (hp : HashPart) (idx : Nat) (v : TValue) :
    (hp.setSlotVal idx v).slots.length = hp.slots.length := by
  simp [HashPart.setSlotVal]

theorem WFr_setSlotVal {hp : HashPart} (h : hp.WFr) (idx : Nat) (v : TValue) :
    (hp.setSlotVal idx v).WFr := by
  obtain ⟨h1, h2, h3, h4, h5, h6⟩ := h
  refine ⟨?_, ?_, ?_, ?_, ?_, ?_⟩
  · rw [setSlotVal_ctrl, setSlotVal_capacity]; exact h1
  · rw [setSlotVal_slots_length, setSlotVal_capacity]; exact h2
  · rw [setSlotVal_capacity, setSlotVal_numGroups]; exact h3
  · rw [setSlotVal_capacity]; exact h4
  · rw [setSlotVal_capacity]; exact h5
  · rw [setSlotVal_count, setSlotVal_ctrl]; exact h6

theorem WFr_upsert_some {sh : StrHeap} {hp : HashPart} {key : TValue} {hp1 : HashPart}
    {idx : Nat} (hwf : hp.WFr) (hng : 0 < hp.numGroups)
    (h : HashPart.upsert sh hp key = some (hp1, idx)) :
    hp1.WFr ∧ hp1.capacity = hp.capacity ∧ hp1.numGroups = hp.numGroups ∧
    hp1.count ≤ hp.count + 1 := by
  obtain ⟨hcl, hsl, hcap, hpow, hle, hcnt⟩ := hwf
  have hcountlt : hp.count + 1 < U32 := by
    have hfl : liveCtrl hp.ctrl ≤ hp.ctrl.length := List.length_filter_le _ _
    norm_num [U32]
    omega
  rcases upsert_cases hng h with heq | ⟨hidx, hneg, hctrl, hslots, hcount, hcap1, hng1⟩
  · rw [heq]
    exact ⟨⟨hcl, hsl, hcap, hpow, hle, hcnt⟩, rfl, rfl, Nat.le_succ _⟩
  · have hlive1 : liveCtrl hp1.ctrl = liveCtrl hp.ctrl + 1 := by
      rw [hctrl]
      exact liveCtrl_set_of_neg (by rw [hcl, hcap]; exact hidx) hneg (h2of_nonneg _)
    have hcnt1 : hp1.count = hp.count + 1 := by rw [hcount, u32inc_small hcountlt]
    refine ⟨⟨?_, ?_, ?_, ?_, ?_, ?_⟩, hcap1, hng1, by omega⟩
    · rw [hctrl, List.length_set, hcap1, hcl]
    · rw [hslots, List.length_set, hcap1, hsl]
    · rw [hcap1, hng1, hcap]
    · rw [hcap1]; exact hpow
    · rw [hcap1]; exact hle
    · rw [hcnt1, hlive1, hcnt]

theorem hashSet_insert_preserves {sh : StrHeap} {t t' : LuaTable} {key val : TValue}
    (hwf : t.hash.WFr) (hnil : val.isNil = false)
    (h : t.hashSet sh key val = some t') :
    t'.hash.WFr ∧
    (t.hash.needsRehash = false →
       t'.hash.capacity = t.hash.capacity ∧ t'.hash.count ≤ t.hash.count + 1) ∧
    (t.hash.needsRehash = true →
       t'.hash.count ≤ t.hash.capacity + 1 ∧
       (t.hash.capacity = 0 → t'.hash.capacity = 16) ∧
       (0 < t.hash.capacity → t'.hash.capacity = 2 * t.hash.capacity)) := by
  have hwfKeep := hwf
  obtain ⟨hcl, hsl, hcap, hpow, hle, hcnt⟩ := hwfKeep
  unfold LuaTable.hashSet at h
  rcases hreh : t.hash.needsRehash with _ | _
  · rw [hreh, if_neg Bool.false_ne_true] at h
    dsimp only at h
    rcases hup : HashPart.upsert sh t.hash key with _ | ⟨hp1, idx⟩
    · rw [hup] at h; simp at h
    · rw [hup] at h
      dsimp only at h
      rw [hnil, if_neg Bool.false_ne_true] at h
      obtain rfl : _ = t' := by injection h
      have hng : 0 < t.hash.numGroups := by
        rcases Nat.eq_zero_or_pos t.hash.numGroups with h0 | h0
        · exfalso
          have hz : t.hash.capacity = 0 := by rw [hcap, h0]
          simp [HashPart.needsRehash, hz] at hreh
        · exact h0
      obtain ⟨hwf1, hc1, _, hcount1⟩ := WFr_upsert_some hwf hng hup
      refine ⟨WFr_setSlotVal hwf1 _ _, fun _ => ⟨?_, ?_⟩,
        fun hcontra => absurd hcontra (by simp [hreh])⟩
      · show (hp1.setSlotVal idx val).capacity = t.hash.capacity
        rw [setSlotVal_capacity, hc1]
      · show (hp1.setSlotVal idx val).count ≤ t.hash.count + 1
        rw [setSlotVal_count]
        exact hcount1
  · rw [hreh, if_pos rfl] at h
    rcases hrb : LuaTable.rebuildHash sh t.hash
        (if t.hash.capacity == 0 then 16 else t.hash.capacity * 2 % U32) with _ | hp
    · rw [hrb] at h; simp at h
    · rw [hrb] at h
      dsimp only at h
      set newCap := if t.hash.capacity == 0 then 16 else t.hash.capacity * 2 % U32 with hnewCap
      have hdvd : 16 ∣ newCap := by
        rw [hnewCap]
        by_cases hc0 : t.hash.capacity = 0
        · simp [hc0]
        · simp only [beq_iff_eq, hc0, if_false]
          have h16 : (16:Nat) ∣ t.hash.capacity * 2 := Dvd.dvd.mul_right ⟨t.hash.numGroups, hcap⟩ 2
          exact (Nat.dvd_mod_iff (by norm_num [U32])).mpr h16
      have hpowNew : newCap = 0 ∨ ∃ k, newCap = 16 * 2 ^ k := by
        rw [hnewCap]
        by_cases hc0 : t.hash.capacity = 0
        · simp only [hc0, beq_self_eq_true, if_true]
          right; exact ⟨0, by norm_num⟩
        · simp only [beq_iff_eq, hc0, if_false]
          rcases cap_double_facts (hpow.resolve_left hc0) hle with ⟨_, _, hk⟩ | ⟨_, hzero⟩
          · right; exact hk
          · left; exact hzero
      have hleNew : newCap ≤ 2 ^ 31 := by
        rw [hnewCap]
        by_cases hc0 : t.hash.capacity = 0
        · simp only [hc0, beq_self_eq_true, if_true]; norm_num
        · simp only [beq_iff_eq, hc0, if_false]
          rcases cap_double_facts (hpow.resolve_left hc0) hle with ⟨_, hb, _⟩ | ⟨_, hzero⟩
          · exact hb
          · rw [hzero]; exact Nat.zero_le _
      have hrbf := rebuildLoop_facts (List.range t.hash.capacity) (HashPart.init newCap) hp hrb
        (by simp [HashPart.init, liveCtrl_replicate_empty])
        (by simp [HashPart.init])
        (by simp [HashPart.init])
        (by simp [HashPart.init]; omega)
        (by simp only [HashPart.init, List.length_range, Nat.zero_add]; norm_num [U32]; omega)
      obtain ⟨hpc, hple, hpcap, hpcl, hpsl, hpng⟩ := hrbf
      simp only [HashPart.init] at hpcap hpcl hpsl hpng
      simp only [HashPart.init, List.length_range, Nat.zero_add] at hple
      have hpWF : hp.WFr := by
        refine ⟨by rw [hpcl, hpcap], by rw [hpsl, hpcap], ?_, by rw [hpcap]; exact hpowNew,
          by rw [hpcap]; exact hleNew, hpc⟩
        rw [hpcap, hpng]
        exact (Nat.mul_div_cancel' hdvd).symm
      rcases hup : HashPart.upsert sh hp key with _ | ⟨hp1, idx⟩
      · rw [hup] at h; simp at h
      · rw [hup] at h
        dsimp only at h
        rw [hnil, if_neg Bool.false_ne_true] at h
        obtain rfl : _ = t' := by injection h
        have hng : 0 < hp.numGroups := by
          rcases Nat.eq_zero_or_pos hp.numGroups with h0 | h0
          · rw [upsert_none_of_zero h0] at hup; simp at hup
          · exact h0
        obtain ⟨hwf1, hc1, _, hcount1⟩ := WFr_upsert_some hpWF hng hup
        refine ⟨WFr_setSlotVal hwf1 _ _,
          fun hcontra => absurd hcontra (by simp [hreh]),
          fun _ => ⟨?_, ?_, ?_⟩⟩
        · show (hp1.setSlotVal idx val).count ≤ t.hash.capacity + 1
          rw [setSlotVal_count]
          omega
        · intro hc0
          show (hp1.setSlotVal idx val).capacity = 16
          rw [setSlotVal_capacity, hc1, hpcap, hnewCap]
          simp [hc0]
        · intro hcpos
          show (hp1.setSlotVal idx val).capacity = 2 * t.hash.capacity
          rw [setSlotVal_capacity, hc1, hpcap, hnewCap]
          have hc0 : ¬(t.hash.capacity = 0) := by omega
          simp only [beq_iff_eq, hc0, if_false]
          rcases cap_double_facts (hpow.resolve_left hc0) hle with ⟨hd, _, _⟩ | ⟨hc31, hzero⟩
          · exact hd
          · exfalso
            have h0 : hp.numGroups = 0 := by
              have := hpng
              rw [hnewCap] at this
              simp only [beq_iff_eq, hc0, if_false] at this
              rw [hzero] at this
              simpa using this
            omega

theorem hashSet_keeps_bound {sh : StrHeap} {t t' : LuaTable} {key val : TValue}
    (hwf : t.hash.WFr) (hnil : val.isNil = false)
    (_hb : t.hash.count ≤ t.hash.capacity * 7 / 8)
    (h : t.hashSet sh key val = some t') :
    t'.hash.WFr ∧ t'.hash.count ≤ t'.hash.capacity * 7 / 8 := by
  obtain ⟨hwf', hfalse, htrue⟩ := hashSet_insert_preserves hwf hnil h
  refine ⟨hwf', ?_⟩
  rcases hreh : t.hash.needsRehash with _ | _
  · obtain ⟨hcapeq, hcnt⟩ := hfalse hreh
    have hlt : t.hash.count < t.hash.capacity * 7 % U32 / 8 := by
      simp only [HashPart.needsRehash, Bool.or_eq_false_iff, decide_eq_false_iff_not,
        beq_eq_false_iff_ne, ne_eq, not_le] at hreh
      exact hreh.2
    have hle2 : t.hash.capacity * 7 % U32 / 8 ≤ t.hash.capacity * 7 / 8 :=
      Nat.div_le_div_right (Nat.mod_le _ _)
    rw [hcapeq]
    omega
  · obtain ⟨hcnt, h0, hpos⟩ := htrue hreh
    rcases Nat.eq_zero_or_pos t.hash.capacity with hc0 | hcpos
    · rw [h0 hc0]
      rw [hc0] at hcnt
      norm_num
      omega
    · rw [hpos hcpos]
      obtain ⟨hcl, hsl, hcap, hpow, hle, hcnteq⟩ := hwf
      have hcalc : 2 * t.hash.capacity * 7 / 8 = 28 * t.hash.numGroups := by
        have hmul : 2 * t.hash.capacity * 7 = 28 * t.hash.numGroups * 8 := by
          rw [hcap]; ring
        rw [hmul, Nat.mul_div_cancel _ (by norm_num)]
      rw [hcalc]
      omega

theorem hashSetSeq_nil (sh : StrHeap) (t : LuaTable) : hashSetSeq sh [] t = some t := rfl

theorem hashSetSeq_cons (sh : StrHeap) (kv : TValue × TValue) (rest : List (TValue × TValue))
    (t : LuaTable) :
    hashSetSeq sh (kv :: rest) t =
      (match t.hashSet sh kv.1 kv.2 with
       | none => none
       | some t1 => hashSetSeq sh rest t1) := rfl

theorem c3_counterexample :
    LuaTable.empty.hash.capacity = 0 ∧
    LuaTable.empty.hash.capacity * 7 / 8 ≤ LuaTable.empty.hash.count ∧
    (LuaTable.hashSet shEmpty LuaTable.empty (TValue.stringV 1) (TValue.intV 5)).map
      (fun t' => t'.hash.capacity) = some 16 ∧
    ¬((16 : Nat) = 2 * LuaTable.empty.hash.capacity) := by decide

/-- C3 (amended): after any sequence of insertions into the hash part of a
well-formed table, `count ≤ capacity * 7 / 8` holds; whenever an insertion
would violate this bound, the hash part is first rehashed before the insert
completes — to double its capacity when the hash part already exists
(`capacity > 0`), and to the initial 16-slot capacity when it does not yet
exist (`capacity = 0`). -/
theorem c3_load_factor_amended :
    (∀ (sh : StrHeap) (ops : List (TValue × TValue)) (t t' : LuaTable),
       t.hash.WFr → t.hash.count ≤ t.hash.capacity * 7 / 8 →
       (∀ kv ∈ ops, kv.2.isNil = false) →
       hashSetSeq sh ops t = some t' →
       t'.hash.WFr ∧ t'.hash.count ≤ t'.hash.capacity * 7 / 8) ∧
    (∀ (sh : StrHeap) (t t' : LuaTable) (key val : TValue),
       t.hash.WFr → val.isNil = false →
       t.hash.capacity * 7 / 8 ≤ t.hash.count →
       t.hashSet sh key val = some t' →
       (0 < t.hash.capacity → t'.hash.capacity = 2 * t.hash.capacity) ∧
       (t.hash.capacity = 0 → t'.hash.capacity = 16)) := by
  constructor
  · intro sh ops
    induction ops with
    | nil =>
      intro t t' hwf hb _ h
      rw [hashSetSeq_nil] at h
      obtain rfl : t = t' := by injection h
      exact ⟨hwf, hb⟩
    | cons kv rest ih =>
      intro t t' hwf hb hnil h
      rw [hashSetSeq_cons] at h
      rcases hstep : t.hashSet sh kv.1 kv.2 with _ | t1
      · rw [hstep] at h; simp at h
      · rw [hstep] at h
        dsimp only at h
        obtain ⟨hwf1, hb1⟩ :=
          hashSet_keeps_bound hwf (hnil kv (List.mem_cons_self kv rest)) hb hstep
        exact ih t1 t' hwf1 hb1 (fun kv' hm => hnil kv' (List.mem_cons_of_mem _ hm)) h
  · intro sh t t' key val hwf hnil htrig h
    have hreh : t.hash.needsRehash = true := by
      simp only [HashPart.needsRehash, Bool.or_eq_true, beq_iff_eq, decide_eq_true_eq]
      by_cases hc0 : t.hash.capacity = 0
      · exact Or.inl hc0
      · right
        have hle2 : t.hash.capacity * 7 % U32 / 8 ≤ t.hash.capacity * 7 / 8 :=
          Nat.div_le_div_right (Nat.mod_le _ _)
        omega
    obtain ⟨_, _, htrue⟩ := hashSet_insert_preserves hwf hnil h
    obtain ⟨_, h0, hpos⟩ := htrue hreh
    exact ⟨hpos, h0⟩

theorem c3_load_factor_amended_witness :
    c3wTable.hash.WFr ∧ c3wTable.hash.count ≤ c3wTable.hash.capacity * 7 / 8 := by
  have hseq : hashSetSeq shEmpty [(TValue.stringV 1, TValue.intV 5)] LuaTable.empty =
      some c3wTable := by decide
  exact c3_load_factor_amended.1 shEmpty [(TValue.stringV 1, TValue.intV 5)]
    LuaTable.empty c3wTable ⟨rfl, rfl, rfl, Or.inl rfl, by decide, rfl⟩
    (by decide) (by decide) hseq

/-! C2/C4: the open-upvalue list.  Unfolding lemmas for the fuel-indexed
walks, then the chain lemmas. -/

theorem foc_succ (slot fresh : Nat) (h : UVHeap) (hd n : Nat) :
    findOrCreateUpVal slot fresh h hd (n + 1) =
      (if hd = 0 then
        some (fresh, fresh, fun q => if q = fresh then some { UpVal.create slot with openNext := 0 } else h q)
      else
        match h hd with
        | none => none
        | some uv =>
          if uv.stackSlot < slot then
            some (fresh, fresh, fun q => if q = fresh then some { UpVal.create slot with openNext := hd } else h q)
          else if uv.stackSlot = slot then
            some (hd, hd, h)
          else
            match findOrCreateUpVal slot fresh h uv.openNext n with
            | none => none
            | some (p, nh, h1) =>
              some (p, hd, fun q => if q = hd then some { uv with openNext := nh } else h1 q)) := rfl

theorem cu_succ (mem : Mem) (level : Nat) (h : UVHeap) (hd n : Nat) :
    closeUpvalues mem level h hd (n + 1) =
      (if hd = 0 then some (0, h)
      else
        match h hd with
        | none => none
        | some uv =>
          if level ≤ uv.stackSlot then
            match uv.close mem with
            | none => none
            | some uvC =>
              closeUpvalues mem level
                (fun q => if q = hd then some { uvC with openNext := 0 } else h q) uv.openNext n
          else some (hd, h)) := rfl

theorem UVChain_nil_hd {h : UVHeap} {hd : Nat} (hc : UVChain h hd []) : hd = 0 := by
  cases hc
  rfl

theorem slotOf_some {h : UVHeap} {p : Nat} {uv : UpVal} (hp : h p = some uv) :
    slotOf h p = uv.stackSlot := by
  simp [slotOf, hp]

theorem UVChain_congr {h h' : UVHeap} {hd : Nat} {L : List Nat}
    (hc : UVChain h hd L) (heq : ∀ p ∈ L, h' p = h p) : UVChain h' hd L := by
  induction hc with
  | nil => exact .nil h'
  | cons uv hne hp hrest ih =>
    refine .cons uv hne ?_ (ih fun p hm => heq p (List.mem_cons_of_mem _ hm))
    rw [heq _ (List.mem_cons_self _ _), hp]

/-- C2: while a stack slot is open (an upvalue for it is in the sorted open
list), `findOrCreateUpVal` returns that pointer-identical upvalue and changes
nothing, so every call for the slot yields the same object; and once
upvalues are closed, a `set` through the shared cell is observed by a `get`
through every closure holding the same `UpVal` pointer. -/
theorem c2_upvalue_sharing :
    (∀ (h : UVHeap) (hd : Nat) (L : List Nat) (slot fresh p : Nat),
       UVChain h hd L →
       L.Pairwise (fun a b => slotOf h b < slotOf h a) →
       p ∈ L → slotOf h p = slot →
       ∃ h', findOrCreateUpVal slot fresh h hd (L.length + 1) = some (p, hd, h') ∧
             ∀ q, h' q = h q) ∧
    (∀ (h : UVHeap) (mem : Mem) (c1 c2 : LuaClosure) (i j p : Nat) (uv : UpVal)
       (v : TValue) (h' : UVHeap) (mem' : Mem),
       c1.upvals.get? i = some p → c2.upvals.get? j = some p →
       h p = some uv → uv.state = UVState.Closed → uv.val = ValPtr.ownClosed →
       LuaClosure.setUpval h mem c1 i v = some (h', mem') →
       LuaClosure.getUpval h' mem' c2 j = some v) := by
  constructor
  · intro h hd L
    induction L generalizing hd with
    | nil => intro slot fresh p _ _ hmem; simp at hmem
    | cons p0 rest ih =>
      intro slot fresh p hc hsort hmem hslot
      rcases hc with _ | ⟨uv, hne, hp0, hrest⟩
      rw [List.length_cons, foc_succ, if_neg hne, hp0]
      dsimp only
      rcases List.mem_cons.mp hmem with rfl | hmem'
      · rw [slotOf_some hp0] at hslot
        rw [if_neg (by omega), if_pos hslot]
        exact ⟨h, rfl, fun _ => rfl⟩
      · have hgt : slot < uv.stackSlot := by
          have := (List.pairwise_cons.mp hsort).1 p hmem'
          rw [hslot, slotOf_some hp0] at this
          exact this
        rw [if_neg (by omega), if_neg (by omega)]
        obtain ⟨h1, hfoc, hpt⟩ := ih uv.openNext slot fresh p hrest
          (List.pairwise_cons.mp hsort).2 hmem' hslot
        rw [hfoc]
        dsimp only
        refine ⟨_, rfl, fun q => ?_⟩
        by_cases hq : q = p0
        · subst hq
          simp [hp0]
        · simp only [if_neg hq]
          exact hpt q
  · intro h mem c1 c2 i j p uv v h' mem' hc1 hc2 hp hst hvp hset
    unfold LuaClosure.setUpval uvSet at hset
    rw [hc1] at hset
    dsimp only at hset
    rw [hp] at hset
    dsimp only at hset
    rw [hvp] at hset
    dsimp only at hset
    injection hset with hpair
    have hh := congrArg Prod.fst hpair
    have hm := congrArg Prod.snd hpair
    dsimp only at hh hm
    unfold LuaClosure.getUpval
    rw [hc2]
    dsimp only
    rw [← hh]
    simp [UpVal.uvGet, UpVal.deref, hvp]

theorem c2_upvalue_sharing_witness :
    findOrCreateUpVal 5 2 heap1 1 2 = some (1, 1, heap1) ∧
    LuaClosure.getUpval heap2' mem2' cShared 0 = some (TValue.intV 9) := by
  constructor
  · obtain ⟨h', heq, hpt⟩ := c2_upvalue_sharing.1 heap1 1 [1] 5 2 1
      (.cons uvOpen5 (by decide) rfl (.nil heap1))
      (by simp)
      (by simp)
      rfl
    have hfe : h' = heap1 := funext hpt
    rw [hfe] at heq
    exact heq
  · have hset : LuaClosure.setUpval heap2 memNil cShared 0 (TValue.intV 9) =
        some (heap2', mem2') := rfl
    exact c2_upvalue_sharing.2 heap2 memNil cShared cShared 0 0 3 uvClosed0 (TValue.intV 9)
      heap2' mem2' rfl rfl rfl rfl rfl hset

theorem closeUpvalues_spec {mem : Mem} {level : Nat} :
    ∀ (L : List Nat) (h : UVHeap) (hd : Nat),
      UVChain h hd L →
      L.Pairwise (fun a b => slotOf h b < slotOf h a) →
      (∀ p ∈ L, ∃ uv, h p = some uv ∧ uv.state = UVState.Open ∧
        uv.val = ValPtr.stackPtr uv.stackSlot) →
      L.Nodup →
      ∃ hd' h', closeUpvalues mem level h hd (L.length + 1) = some (hd', h') ∧
        UVChain h' hd' (L.filter fun p => decide (slotOf h p < level)) ∧
        (∀ p ∈ L, level ≤ slotOf h p →
           ∃ uv, h p = some uv ∧
             h' p = some ⟨ValPtr.ownClosed, UVState.Closed, 0, 0, mem uv.stackSlot⟩) ∧
        (∀ p ∈ L, slotOf h p < level → h' p = h p) ∧
        (∀ q, q ∉ L → h' q = h q) := by
  intro L
  induction L with
  | nil =>
    intro h hd hc _ _ _
    have h0 := UVChain_nil_hd hc
    subst h0
    refine ⟨0, h, by rw [cu_succ, if_pos rfl], .nil h, ?_, ?_, fun _ _ => rfl⟩
    · intro p hm; simp at hm
    · intro p hm; simp at hm
  | cons p0 rest ih =>
    intro h hd hc hsort hopen hnd
    rcases hc with _ | ⟨uv, hne, hp0, hrest⟩
    obtain ⟨uv0, hp0', hst, hvp⟩ := hopen p0 (List.mem_cons_self _ _)
    obtain rfl : uv = uv0 := by
      rw [hp0] at hp0'
      injection hp0'
    have hp0nr : p0 ∉ rest := (List.nodup_cons.mp hnd).1
    have hslot0 : slotOf h p0 = uv.stackSlot := slotOf_some hp0
    by_cases hcl : level ≤ uv.stackSlot
    · have hclose : uv.close mem = some ⟨ValPtr.ownClosed, UVState.Closed, uv.openNext, 0,
          mem uv.stackSlot⟩ := by
        unfold UpVal.close UpVal.deref
        rw [if_pos hst, hvp]
      set h1 : UVHeap := fun q =>
        if q = p0 then some ⟨ValPtr.ownClosed, UVState.Closed, 0, 0, mem uv.stackSlot⟩
        else h q with hh1
      have h1eq : ∀ q, q ≠ p0 → h1 q = h q := by
        intro q hq
        rw [hh1]
        simp [hq]
      have h1slot : ∀ p ∈ rest, slotOf h1 p = slotOf h p := by
        intro p hm
        unfold slotOf
        rw [h1eq p (fun heq => hp0nr (heq ▸ hm))]
      have hch1 : UVChain h1 uv.openNext rest :=
        UVChain_congr hrest (fun p hm => h1eq p (fun heq => hp0nr (heq ▸ hm)))
      have hsort1 : rest.Pairwise (fun a b => slotOf h1 b < slotOf h1 a) :=
        List.Pairwise.imp_of_mem
          (fun ha hb hr => by rw [h1slot _ ha, h1slot _ hb]; exact hr)
          (List.pairwise_cons.mp hsort).2
      have hopen1 : ∀ p ∈ rest, ∃ uv', h1 p = some uv' ∧ uv'.state = UVState.Open ∧
          uv'.val = ValPtr.stackPtr uv'.stackSlot := by
        intro p hm
        obtain ⟨uv', hpu, hs, hv⟩ := hopen p (List.mem_cons_of_mem _ hm)
        exact ⟨uv', by rw [h1eq p (fun heq => hp0nr (heq ▸ hm))]; exact hpu, hs, hv⟩
      obtain ⟨hd'', h'', hcu, hchain'', hclosed'', hkept'', hout''⟩ :=
        ih h1 uv.openNext hch1 hsort1 hopen1 (List.nodup_cons.mp hnd).2
      refine ⟨hd'', h'', ?_, ?_, ?_, ?_, ?_⟩
      · rw [List.length_cons, cu_succ, if_neg hne, hp0]
        dsimp only
        rw [if_pos hcl, hclose]
        exact hcu
      · have hf0 : (decide (slotOf h p0 < level)) = false := by
          simp only [decide_eq_false_iff_not, not_lt, hslot0]
          exact hcl
        simp only [List.filter_cons, hf0, Bool.false_eq_true, if_false]
        rw [List.filter_congr (fun p hm => by rw [← h1slot p hm])]
        exact hchain''
      · intro p hm hlev
        rcases List.mem_cons.mp hm with rfl | hm'
        · refine ⟨uv, hp0, ?_⟩
          rw [hout'' p hp0nr, hh1]
          simp
        · obtain ⟨uv', hpu, hres⟩ := hclosed'' p hm' (by rw [h1slot p hm']; exact hlev)
          rw [h1eq p (fun heq => hp0nr (heq ▸ hm'))] at hpu
          exact ⟨uv', hpu, hres⟩
      · intro p hm hlt
        rcases List.mem_cons.mp hm with rfl | hm'
        · rw [hslot0] at hlt; omega
        · have hk := hkept'' p hm' (by rw [h1slot p hm']; exact hlt)
          rw [hk, h1eq p (fun heq => hp0nr (heq ▸ hm'))]
      · intro q hq
        have hq0 : q ≠ p0 := fun heq => hq (heq ▸ List.mem_cons_self _ _)
        have hqr : q ∉ rest := fun hm => hq (List.mem_cons_of_mem _ hm)
        rw [hout'' q hqr, h1eq q hq0]
    · have hall : ∀ p ∈ p0 :: rest, slotOf h p < level := by
        intro p hm
        rcases List.mem_cons.mp hm with rfl | hm'
        · rw [hslot0]; omega
        · have hpair := (List.pairwise_cons.mp hsort).1 p hm'
          rw [hslot0] at hpair
          omega
      refine ⟨p0, h, ?_, ?_, ?_, fun p _ _ => rfl, fun _ _ => rfl⟩
      · rw [List.length_cons, cu_succ, if_neg hne, hp0]
        dsimp only
        rw [if_neg (by omega)]
      · rw [List.filter_eq_self.mpr (fun p hm => by simp only [decide_eq_true_eq]; exact hall p hm)]
        exact .cons uv hne hp0 hrest
      · intro p hm hlev
        exact absurd hlev (by have := hall p hm; omega)

/-- C4: `closeUpvalues(openList, level)` closes exactly the open-list members
whose stack slot is at or above `level` (copying the stack value into the
upvalue's own storage and repointing the indirection at it) and removes them
from the list; members below `level` stay untouched and listed; pointers
outside the list are untouched; and no upvalue transitions from Closed back to
Open. -/
theorem c4_close_upvalues (mem : Mem) (level : Nat) (h : UVHeap) (hd : Nat) (L : List Nat)
    (hc : UVChain h hd L)
    (hsort : L.Pairwise (fun a b => slotOf h b < slotOf h a))
    (hopen : ∀ p ∈ L, ∃ uv, h p = some uv ∧ uv.state = UVState.Open ∧
      uv.val = ValPtr.stackPtr uv.stackSlot)
    (hnd : L.Nodup) :
    ∃ hd' h', closeUpvalues mem level h hd (L.length + 1) = some (hd', h') ∧
      UVChain h' hd' (L.filter fun p => decide (slotOf h p < level)) ∧
      (∀ p ∈ L, level ≤ slotOf h p →
         ∃ uv, h p = some uv ∧
           h' p = some ⟨ValPtr.ownClosed, UVState.Closed, 0, 0, mem uv.stackSlot⟩ ∧
           p ∉ L.filter fun p => decide (slotOf h p < level)) ∧
      (∀ p ∈ L, slotOf h p < level →
         h' p = h p ∧ p ∈ L.filter fun p => decide (slotOf h p < level)) ∧
      (∀ q, q ∉ L → h' q = h q) ∧
      (∀ q uv0, h q = some uv0 → uv0.state = UVState.Closed →
         ∃ uv1, h' q = some uv1 ∧ uv1.state = UVState.Closed) := by
  obtain ⟨hd', h', heq, hchain, hclosed, hkept, hout⟩ :=
    closeUpvalues_spec L h hd hc hsort hopen hnd
  refine ⟨hd', h', heq, hchain, ?_, ?_, hout, ?_⟩
  · intro p hm hlev
    obtain ⟨uv, hpu, hres⟩ := hclosed p hm hlev
    refine ⟨uv, hpu, hres, ?_⟩
    intro hmf
    have hdec := (List.mem_filter.mp hmf).2
    simp only [decide_eq_true_eq] at hdec
    omega
  · intro p hm hlt
    exact ⟨hkept p hm hlt,
      List.mem_filter.mpr ⟨hm, by simp only [decide_eq_true_eq]; exact hlt⟩⟩
  · intro q uv0 hq hst
    by_cases hqm : q ∈ L
    · obtain ⟨uv1, hq1, hs1, _⟩ := hopen q hqm
      rw [hq] at hq1
      injection hq1 with he
      rw [← he, hst] at hs1
      simp at hs1
    · exact ⟨uv0, by rw [hout q hqm]; exact hq, hst⟩

theorem c4_close_upvalues_witness :
    closeUpvalues memNil 3 heap1 1 2 = some (0, heap1Closed) := by
  obtain ⟨hd', h', heq, hchain, hclosed, _, hout, _⟩ :=
    c4_close_upvalues memNil 3 heap1 1 [1]
      (.cons uvOpen5 (by decide) rfl (.nil heap1))
      (by simp)
      (by intro p hm; simp at hm; subst hm; exact ⟨uvOpen5, rfl, rfl, rfl⟩)
      (by simp)
  have hfilter : ([1].filter fun p => decide (slotOf heap1 p < 3)) = [] := rfl
  rw [hfilter] at hchain
  have hhd0 : hd' = 0 := UVChain_nil_hd hchain
  obtain ⟨uvx, _, hres, _⟩ := hclosed 1 (by simp) (by rw [show slotOf heap1 1 = 5 from rfl]; omega)
  have hfe : h' = heap1Closed := by
    funext q
    by_cases hq : q = 1
    · subst hq
      rw [hres]
      rfl
    · rw [hout q (by simp [hq]), heap1Closed, if_neg hq]
  rw [hfe, hhd0] at heq
  exact heq

/-! C6: the 1..20 growth scenario. -/

@[simp] theorem isNil_nilV : TValue.nilV.isNil = true := rfl

theorem getD_replicate_lt {α : Type} {i n : Nat} (h : i < n) (a d : α) :
    (List.replicate n a).getD i d = a := by
  induction n generalizing i with
  | zero => omega
  | succ m ih =>
    cases i with
    | zero => simp [List.replicate_succ]
    | succ j =>
      simp only [List.replicate_succ, List.getD_cons_succ]
      exact ih (by omega)

theorem set_replicate_zero {α : Type} {p : Nat} (hp : 1 ≤ p) (a v : α) :
    (List.replicate p a).set 0 v = v :: List.replicate (p - 1) a := by
  cases p with
  | zero => omega
  | succ q => simp [List.replicate_succ]

theorem c6Arr_getD_lt {vs : Nat → TValue} {n pad k : Nat} (h : k < n) :
    (c6Arr vs n pad).getD k TValue.nilV = vs (k + 1) := by
  unfold c6Arr
  rw [List.getD_append _ _ _ _ (by simp [h]), List.getD_eq_getElem?_getD,
    List.getElem?_map, List.getElem?_range h]
  rfl

theorem c6Arr_getD_ge {vs : Nat → TValue} {n pad k : Nat} (h1 : n ≤ k) (h2 : k < n + pad) :
    (c6Arr vs n pad).getD k TValue.nilV = TValue.nilV := by
  unfold c6Arr
  rw [List.getD_append_right _ _ _ _ (by simp [h1])]
  simp only [List.length_map, List.length_range]
  exact getD_replicate_lt (by omega) _ _

theorem rawset_fill_next (sh : StrHeap) (pre : List TValue) (pad size cnt : Nat)
    (hp : HashPart) (mt : Nat) (v : TValue)
    (hlen : pre.length + pad = size) (hpad : 1 ≤ pad) (hpre : pre.length + 1 < U32)
    (hv : v.isNil = false) (hcnt : cnt + 1 < U32) :
    LuaTable.rawset sh ⟨pre ++ List.replicate pad TValue.nilV, size, cnt, hp, mt⟩
      (TValue.intV (pre.length + 1)) v =
    some ⟨(pre ++ [v]) ++ List.replicate (pad - 1) TValue.nilV, size, cnt + 1, hp, mt⟩ := by
  have hplt : pre.length < size := by omega
  have hidx : ((TValue.intV (pre.length + 1)).toInteger + (U32 - 1)) % U32 = pre.length := by
    rw [TValue.toInteger_intV, Nat.mod_eq_of_lt hpre, idx_of_small (by omega) hpre]
    omega
  unfold LuaTable.rawset
  rw [if_neg (by simp), if_pos (by simp)]
  dsimp only
  rw [hidx, if_pos (by exact hplt)]
  have hwas : LuaTable.arrAt ⟨pre ++ List.replicate pad TValue.nilV, size, cnt, hp, mt⟩
      pre.length = TValue.nilV := by
    unfold LuaTable.arrAt
    dsimp only
    rw [List.getD_append_right _ _ _ _ (le_refl _), Nat.sub_self]
    exact getD_replicate_lt (by omega) _ _
  rw [hwas]
  simp only [isNil_nilV, hv, Bool.not_false, Bool.and_self, if_pos rfl,
    Bool.true_and, Bool.not_eq_true]
  rw [u32inc_small hcnt]
  rw [List.set_append, if_neg (by omega)]
  rw [Nat.sub_self, set_replicate_zero hpad]
  rw [List.append_assoc, List.singleton_append, if_pos True.intro]

theorem c6_step_mid (sh : StrHeap) (vs : Nat → TValue) (hv : ∀ j, (vs j).isNil = false)
    (n : Nat) (h1 : 1 ≤ n) (h2 : n ≤ 15) :
    LuaTable.rawset sh (c6State vs n) (TValue.intV (n + 1)) (vs (n + 1)) =
      some (c6State vs (n + 1)) := by
  have e1 : c6State vs n = ⟨c6Arr vs n (16 - n), 16, n, ⟨[], [], 0, 0, 0⟩, 0⟩ := by
    unfold c6State
    rw [if_neg (by omega), if_pos (by omega)]
  have e2 : c6State vs (n + 1) = ⟨c6Arr vs (n + 1) (16 - (n + 1)), 16, n + 1, ⟨[], [], 0, 0, 0⟩, 0⟩ := by
    unfold c6State
    rw [if_neg (by omega), if_pos (by omega)]
  rw [e1, e2]
  have hpl : ((List.range n).map fun j => vs (j + 1)).length = n := by simp
  have h := rawset_fill_next sh ((List.range n).map fun j => vs (j + 1)) (16 - n) 16 n
    ⟨[], [], 0, 0, 0⟩ 0 (vs (n + 1)) (by rw [hpl]; omega) (by omega)
    (by rw [hpl]; unfold U32; omega) (hv (n + 1)) (by unfold U32; omega)
  rw [hpl] at h
  unfold c6Arr
  rw [h]
  simp [List.range_succ, Nat.sub_sub]

theorem c6_step_high (sh : StrHeap) (vs : Nat → TValue) (hv : ∀ j, (vs j).isNil = false)
    (n : Nat) (h1 : 17 ≤ n) (h2 : n ≤ 19) :
    LuaTable.rawset sh (c6State vs n) (TValue.intV (n + 1)) (vs (n + 1)) =
      some (c6State vs (n + 1)) := by
  have e1 : c6State vs n = ⟨c6Arr vs n (32 - n), 32, n, ⟨[], [], 0, 0, 0⟩, 0⟩ := by
    unfold c6State
    rw [if_neg (by omega), if_neg (by omega)]
  have e2 : c6State vs (n + 1) = ⟨c6Arr vs (n + 1) (32 - (n + 1)), 32, n + 1, ⟨[], [], 0, 0, 0⟩, 0⟩ := by
    unfold c6State
    rw [if_neg (by omega), if_neg (by omega)]
  rw [e1, e2]
  have hpl : ((List.range n).map fun j => vs (j + 1)).length = n := by simp
  have h := rawset_fill_next sh ((List.range n).map fun j => vs (j + 1)) (32 - n) 32 n
    ⟨[], [], 0, 0, 0⟩ 0 (vs (n + 1)) (by rw [hpl]; omega) (by omega)
    (by rw [hpl]; unfold U32; omega) (hv (n + 1)) (by unfold U32; omega)
  rw [hpl] at h
  unfold c6Arr
  rw [h]
  simp [List.range_succ, Nat.sub_sub]

theorem c6_step_zero (sh : StrHeap) (vs : Nat → TValue) (hv : ∀ j, (vs j).isNil = false) :
    LuaTable.rawset sh (c6State vs 0) (TValue.intV 1) (vs 1) = some (c6State vs 1) := by
  have h1 := hv 1
  simp [c6State, c6Arr, LuaTable.rawset, LuaTable.empty, LuaTable.growArray,
    LuaTable.growSizeLoop, LuaTable.rehashIntegerKeys, LuaTable.arrAt, U32, u32inc, h1,
    List.replicate_succ, List.range_succ]

theorem c6_step_sixteen (sh : StrHeap) (vs : Nat → TValue) (hv : ∀ j, (vs j).isNil = false) :
    LuaTable.rawset sh (c6State vs 16) (TValue.intV 17) (vs 17) = some (c6State vs 17) := by
  have h17 := hv 17
  simp [c6State, c6Arr, LuaTable.rawset, LuaTable.growArray, LuaTable.growSizeLoop,
    LuaTable.rehashIntegerKeys, LuaTable.arrAt, U32, u32inc, h17,
    List.take_of_length_le, List.set_append, set_replicate_zero, List.range_succ]

theorem c6_read (sh : StrHeap) (vs : Nat → TValue) (n k : Nat)
    (h1 : 1 ≤ k) (hk : k ≤ n) (hn : n ≤ 20) :
    LuaTable.rawget sh (c6State vs n) (TValue.intV k) = some (vs k) := by
  have hkm : k % U32 = k := Nat.mod_eq_of_lt (by unfold U32; omega)
  have hidx : (k + (U32 - 1)) % U32 = k - 1 := idx_of_small h1 (by unfold U32; omega)
  by_cases h16 : n ≤ 16
  · have e : c6State vs n = ⟨c6Arr vs n (16 - n), 16, n, ⟨[], [], 0, 0, 0⟩, 0⟩ := by
      unfold c6State
      rw [if_neg (by omega), if_pos (by omega)]
    rw [e]
    unfold LuaTable.rawget
    rw [if_pos (by simp)]
    dsimp only
    rw [TValue.toInteger_intV, hkm, hidx, if_pos (by show k - 1 < 16; omega)]
    unfold LuaTable.arrAt
    dsimp only
    rw [show (c6Arr vs n (16 - n)).getD (k - 1) TValue.nilV = vs (k - 1 + 1) from
      c6Arr_getD_lt (by omega)]
    rw [show k - 1 + 1 = k from by omega]
  · have e : c6State vs n = ⟨c6Arr vs n (32 - n), 32, n, ⟨[], [], 0, 0, 0⟩, 0⟩ := by
      unfold c6State
      rw [if_neg (by omega), if_neg (by omega)]
    rw [e]
    unfold LuaTable.rawget
    rw [if_pos (by simp)]
    dsimp only
    rw [TValue.toInteger_intV, hkm, hidx, if_pos (by show k - 1 < 32; omega)]
    unfold LuaTable.arrAt
    dsimp only
    rw [show (c6Arr vs n (32 - n)).getD (k - 1) TValue.nilV = vs (k - 1 + 1) from
      c6Arr_getD_lt (by omega)]
    rw [show k - 1 + 1 = k from by omega]

theorem bsLoop_succ (t : LuaTable) (lo hi fuel : Nat) :
    t.bsLoop lo hi (fuel + 1) =
      if lo < hi then
        if (t.arrAt ((lo + hi) / 2)).isNil then t.bsLoop lo ((lo + hi) / 2) fuel
        else t.bsLoop ((lo + hi) / 2 + 1) hi fuel
      else some lo := rfl

theorem arrAt_c6Arr_lt {vs : Nat → TValue} {n pad size cnt : Nat} {hp : HashPart} {mt k : Nat}
    (h : k < n) :
    LuaTable.arrAt ⟨c6Arr vs n pad, size, cnt, hp, mt⟩ k = vs (k + 1) := by
  unfold LuaTable.arrAt
  exact c6Arr_getD_lt h

theorem arrAt_c6Arr_ge {vs : Nat → TValue} {n pad size cnt : Nat} {hp : HashPart} {mt k : Nat}
    (h1 : n ≤ k) (h2 : k < n + pad) :
    LuaTable.arrAt ⟨c6Arr vs n pad, size, cnt, hp, mt⟩ k = TValue.nilV := by
  unfold LuaTable.arrAt
  exact c6Arr_getD_ge h1 h2

theorem c6_length (sh : StrHeap) (vs : Nat → TValue) (hv : ∀ j, (vs j).isNil = false) :
    LuaTable.length sh (c6State vs 20) = some 20 := by
  have e : c6State vs 20 = ⟨c6Arr vs 20 12, 32, 20, ⟨[], [], 0, 0, 0⟩, 0⟩ := by
    unfold c6State
    norm_num
  rw [e]
  unfold LuaTable.length
  simp [bsLoop_succ, arrAt_c6Arr_lt, arrAt_c6Arr_ge, hv]

/-- C6: inserting keys 1..20 in order with non-nil values into a table
created with no size hint steps through the `c6State` snapshots: the array part
is 16 slots from the 1st insert through the 16th and grows past 16 (to 32) at
the 17th insert; afterwards `length()` returns 20, and `rawget` at keys 5 and
15 returns the originally inserted values at every point of the sequence where
those keys are present. -/
theorem c6_growth_scenario (sh : StrHeap) (vs : Nat → TValue)
    (hv : ∀ j, (vs j).isNil = false) :
    c6State vs 0 = LuaTable.empty ∧
    (∀ n, n < 20 →
      LuaTable.rawset sh (c6State vs n) (TValue.intV (n + 1)) (vs (n + 1)) =
        some (c6State vs (n + 1))) ∧
    (c6State vs 16).arraySize = 16 ∧
    (c6State vs 17).arraySize = 32 ∧
    16 < (c6State vs 17).arraySize ∧
    LuaTable.length sh (c6State vs 20) = some 20 ∧
    (∀ n, 5 ≤ n → n ≤ 20 →
      LuaTable.rawget sh (c6State vs n) (TValue.intV 5) = some (vs 5)) ∧
    (∀ n, 15 ≤ n → n ≤ 20 →
      LuaTable.rawget sh (c6State vs n) (TValue.intV 15) = some (vs 15)) := by
  refine ⟨rfl, ?_, rfl, rfl, by show (16:Nat) < 32; norm_num, c6_length sh vs hv, ?_, ?_⟩
  · intro n hn
    rcases Nat.lt_or_ge n 1 with h | h
    · have hz : n = 0 := by omega
      subst hz
      exact c6_step_zero sh vs hv
    · rcases Nat.lt_or_ge n 16 with h' | h'
      · exact c6_step_mid sh vs hv n h (by omega)
      · rcases Nat.lt_or_ge n 17 with h'' | h''
        · have hs : n = 16 := by omega
          subst hs
          exact c6_step_sixteen sh vs hv
        · exact c6_step_high sh vs hv n h'' (by omega)
  · intro n h5 h20
    exact c6_read sh vs n 5 (by omega) h5 h20
  · intro n h15 h20
    exact c6_read sh vs n 15 (by omega) h15 h20

theorem c6_growth_scenario_witness :
    LuaTable.rawset shEmpty (c6State c6wVals 16) (TValue.intV 17) (c6wVals 17) =
      some (c6State c6wVals 17) ∧
    16 < (c6State c6wVals 17).arraySize ∧
    LuaTable.length shEmpty (c6State c6wVals 20) = some 20 ∧
    LuaTable.rawget shEmpty (c6State c6wVals 20) (TValue.intV 5) = some (c6wVals 5) := by
  have h := c6_growth_scenario shEmpty c6wVals (fun j => TValue.isNil_intV (100 + j))
  exact ⟨h.2.1 16 (by omega), h.2.2.2.2.1, h.2.2.2.2.2.1,
    h.2.2.2.2.2.2.1 20 (by omega) (by omega)⟩
